import Mathlib

/- A shallow embedding of the fs-tree-diff virtual filesystem tree library
(lib/entry.js, lib/shared.js, lib/fs-merge-tree.js) together with proofs about
its diff engine, change tracking, sorted-entry invariants, merge guards and
projection filters.

Conventions of the embedding:
* JavaScript `undefined` values are `Option.none`; JS numbers used for sizes,
  times and modes are `Int`/`Nat`.
* JS `+x` numeric coercion of an optional mtime is modelled by `numEq`, which
  is false when either side is undefined (`+undefined` is `NaN`, and
  `NaN === NaN` is false).
* Thrown JS errors become `Except` error values.
* Stateful methods of `WritableTree` become functions from a state record to
  `Except FsError` of a new state record, with a log of filesystem writes in
  place of the real disk. -/

namespace FsTree

/-- Kinds of symlink an entry can carry (`entry._symlink`).
`external target` is `{ external: target }`; `internalRoot` is an internal
link whose `entry` field is the `Entry.ROOT` sentinel (a directory link);
`internalFile` is an internal link to a non-root entry (a file link). -/
inductive Symlink where
  | external (target : String)
  | internalFile
  | internalRoot
deriving DecidableEq, Repr

/-- lib/entry.js: an Entry record.  `relativePath`, `size`, `mtime`, `mode`,
`checksum` are the constructor-set fields; `symlink` is the `_symlink`
property attached after construction by WritableTree methods. -/
structure Entry where
  relativePath : String
  size : Option Int
  mtime : Option Int
  mode : Nat
  checksum : Option String := none
  symlink : Option Symlink := none
deriving DecidableEq, Repr

/-- `Entry.DIRECTORY_MODE` (0o40777). -/
def DIRECTORY_MODE : Nat := 16895

/-- `Entry.FILE_MODE` (0o100777). -/
def FILE_MODE : Nat := 33279

/-- `Entry.isSymbolicLink`: true iff `_symlink` is set. -/
def Entry.isSymbolicLink (e : Entry) : Bool :=
  e.symlink.isSome

/-- `Entry.isDirectory` for non-ROOT entries: symlinks are directories exactly
when they link to another tree's root; otherwise the mode type bits decide
(`(mode & 0o170000) === 0o40000`).  The mask extracts bits 12-15, written
arithmetically as `mode / 0o10000 % 16` so that it kernel-reduces. -/
def Entry.isDirectory (e : Entry) : Bool :=
  match e.symlink with
  | some s => s = Symlink.internalRoot
  | none => e.mode / 4096 % 16 = 4

/-- `Entry.isFile`: the negation of `isDirectory`. -/
def Entry.isFile (e : Entry) : Bool :=
  !e.isDirectory

/-- JS `<` on strings: lexicographic comparison, decided at the first
differing character, with a proper prefix ordered first.  Implemented over
the character list so that it reduces in the kernel. -/
def charListLt : List Char → List Char → Bool
  | _, [] => false
  | [], _ :: _ => true
  | a :: as, b :: bs =>
    if a < b then true
    else if b < a then false
    else charListLt as bs

/-- JS `a < b` on path strings. -/
def strLt (a b : String) : Bool :=
  charListLt a.data b.data

/-- Whether a string ends with the path separator `/`. -/
def endsWithSlash (s : String) : Bool :=
  s.data.getLast? = some '/'

/-- Whether a string ends with `/` or `\`. -/
def endsWithSep (s : String) : Bool :=
  s.data.getLast? = some '/' || s.data.getLast? = some '\\'

/-- Whether a string starts with `/` or `\`. -/
def startsWithSep (s : String) : Bool :=
  s.data.head? = some '/' || s.data.head? = some '\\'

/-- Drop the last character of a string. -/
def dropRight1 (s : String) : String :=
  String.mk s.data.dropLast

/-- Drop the first character of a string. -/
def dropLeft1 (s : String) : String :=
  String.mk s.data.tail

/-- entry.js `chompLeadingAndTrailingSeparator`: strips one leading and one
trailing `/` or `\` (the regex `/^(\/|\\)|(\/|\\)$/g`). -/
def chompLeadingAndTrailingSeparator (s : String) : String :=
  let s1 := if startsWithSep s then dropLeft1 s else s
  if endsWithSep s1 then dropRight1 s1 else s1

/-- The Entry constructor: requires a numeric mode (guaranteed by the type
here) and chomps separators from the path iff the mode marks a directory
(`_symlink` is not yet set at construction time). -/
def Entry.make (relativePath : String) (size mtime : Option Int) (mode : Nat)
    (checksum : Option String := none) : Entry :=
  let e : Entry := { relativePath, size, mtime, mode, checksum, symlink := none }
  if e.isDirectory then { e with relativePath := chompLeadingAndTrailingSeparator relativePath }
  else e

/-- `Entry.fromPath`: a trailing `/` means a directory; no size; mtime is
`ARBITRARY_START_OF_TIME` (0). -/
def Entry.fromPath (relativePath : String) : Entry :=
  let mode := if endsWithSlash relativePath then DIRECTORY_MODE else FILE_MODE
  Entry.make relativePath none (some 0) mode

/-- `Entry.clone`: shallow copy, optionally replacing the relative path. -/
def Entry.clone (e : Entry) (newRelativePath : Option String := none) : Entry :=
  match newRelativePath with
  | some p => { e with relativePath := p }
  | none => e

/-- shared.js `_chompSeparator`: strips one trailing separator. -/
def chompSeparator (p : String) : String :=
  if endsWithSlash p then dropRight1 p else p

/-- shared.js `entryRelativePath`: directory paths are chomped, file paths are
returned as-is. -/
def entryRelativePath (e : Entry) : String :=
  if e.isDirectory then chompSeparator e.relativePath else e.relativePath

/-- shared.js `_comparePaths`: three-way string comparison. -/
def comparePaths (a b : String) : Int :=
  if strLt b a then 1 else if strLt a b then -1 else 0

/-- The five patch operation names. -/
inductive Op where
  | mkdir
  | create
  | change
  | rmdir
  | unlink
deriving DecidableEq, Repr

/-- A change triple `[op, relativePath, entry]`. -/
structure Change where
  op : Op
  path : String
  entry : Entry
deriving DecidableEq, Repr

/-- Whether an operation is one of the remove operations (shared.js
`compareChanges` classifies `rmdir`/`unlink` as `remove`, the rest as `add`). -/
def Op.isRemove (op : Op) : Bool :=
  op = Op.rmdir || op = Op.unlink

/-- shared.js `compareChanges`: removes sort before adds; among removes the
path order is reversed; among adds it is ascending. -/
def compareChanges (a b : Change) : Int :=
  if a.op.isRemove && !b.op.isRemove then -1
  else if !a.op.isRemove && b.op.isRemove then 1
  else if a.op.isRemove then -(comparePaths a.path b.path)
  else comparePaths a.path b.path

/-- fs-merge-tree.js `addCommand`. -/
def addCommand (e : Entry) : Change :=
  ⟨if e.isDirectory then Op.mkdir else Op.create, entryRelativePath e, e⟩

/-- fs-merge-tree.js `removeCommand`. -/
def removeCommand (e : Entry) : Change :=
  ⟨if e.isDirectory then Op.rmdir else Op.unlink, entryRelativePath e, e⟩

/-- fs-merge-tree.js `updateCommand`. -/
def updateCommand (e : Entry) : Change :=
  ⟨Op.change, entryRelativePath e, e⟩

/-- JS `+a === +b` on optional numeric mtimes: `+undefined` is `NaN` and
`NaN === NaN` is false, so the comparison holds only when both values are
present and equal. -/
def numEq : Option Int → Option Int → Bool
  | some a, some b => a = b
  | _, _ => false

/-- `ManualTree.defaultIsEqual`: two directories are always equal; otherwise
size, numeric mtime and mode must all agree. -/
def defaultIsEqual (a b : Entry) : Bool :=
  if a.isDirectory && b.isDirectory then true
  else a.size = b.size && numEq a.mtime b.mtime && a.mode = b.mode

/-- The two-pointer walk of `ManualTree.prototype.calculatePatch`, returning
the `removals` and `additions` accumulators in encounter order.  Every
iteration of the source's `while` loop consumes at least one entry, so a fuel
of `ours.length + theirs.length` always suffices; the explicit fuel keeps the
recursion structural (the fuel-exhausted branch is unreachable when called
through `calculatePatch`). -/
def calculatePatchLoop (isEq : Entry → Entry → Bool) :
    Nat → List Entry → List Entry → List Change × List Change
  | _, [], theirs => ([], theirs.map addCommand)
  | _, x :: ours, [] => ((x :: ours).map removeCommand, [])
  | 0, _ :: _, _ :: _ => ([], [])
  | fuel + 1, x :: ours, y :: theirs =>
    let xpath := entryRelativePath x
    let ypath := entryRelativePath y
    if strLt xpath ypath then
      let p := calculatePatchLoop isEq fuel ours (y :: theirs)
      (removeCommand x :: p.1, p.2)
    else if strLt ypath xpath then
      let p := calculatePatchLoop isEq fuel (x :: ours) theirs
      (p.1, addCommand y :: p.2)
    else
      if isEq x y then calculatePatchLoop isEq fuel ours theirs
      else if x.isFile = y.isFile then
        let p := calculatePatchLoop isEq fuel ours theirs
        (p.1, updateCommand y :: p.2)
      else
        let p := calculatePatchLoop isEq fuel ours theirs
        (removeCommand x :: p.1, addCommand y :: p.2)

/-- `ManualTree.prototype.calculatePatch`: the removals reversed, followed by
the additions. -/
def calculatePatch (isEq : Entry → Entry → Bool) (ours theirs : List Entry) : List Change :=
  let p := calculatePatchLoop isEq (ours.length + theirs.length) ours theirs
  p.1.reverse ++ p.2

/-- The sorted-unique entries invariant (shared.js `validateSortedUnique`
demands strictly ascending relative paths). -/
def SortedU (l : List Entry) : Prop :=
  l.Pairwise fun a b => strLt a.relativePath b.relativePath = true

instance : DecidablePred SortedU := fun l => by
  unfold SortedU; infer_instance

/-- The spec's Entry path invariant, restricted to what the diff ordering
needs: a directory entry's stored path carries no trailing separator (entry.js
chomps it at construction). -/
def Entry.WF (e : Entry) : Prop :=
  e.isDirectory → endsWithSlash e.relativePath = false

instance : DecidablePred Entry.WF := fun e => by
  unfold Entry.WF; infer_instance

/-- JS array indexing `entries[i]` with an `Int` index: out-of-range
(including negative) indices give `undefined`. -/
def entryAt (l : List Entry) (i : Int) : Option Entry :=
  if i < 0 then none else l[i.toNat]?

/-- `entries[i].relativePath`, with `""` out of range (the source only reads
paths at indices it has established to be valid). -/
def relAt (l : List Entry) (i : Int) : String :=
  match entryAt l i with
  | some e => e.relativePath
  | none => ""

/-- The `while (low <= high)` loop of shared.js `searchByRelativePath`.
Returns `some` found index, or `none` together with the final `low` (the loop
always exits with `low = high + 1`).  The interval shrinks on every
iteration, so the `entries.length + 1` fuel passed by `searchByRelativePath`
always suffices; fuel keeps the recursion structural. -/
def bsearchLoop (l : List Entry) (p : String) : Nat → Int → Int → Option Int × Int
  | 0, low, _ => (none, low)
  | fuel + 1, low, high =>
    if low ≤ high then
      let middle := low + (high - low) / 2
      let middleRelativePath := relAt l middle
      if p = middleRelativePath then (some middle, low)
      else if strLt p middleRelativePath then bsearchLoop l p fuel low (middle - 1)
      else bsearchLoop l p fuel (middle + 1) high
    else (none, low)

/-- shared.js `searchByRelativePath`: binary search over a sorted entries
array, returning the matching index or `-1`; with `closest` set, the highest
index whose path is ≤ the target. -/
def searchByRelativePath (l : List Entry) (p : String) (closest : Bool := false) : Int :=
  if l.length = 0 then -1
  else if strLt p (relAt l 0) then -1
  else if strLt (relAt l ((l.length : Int) - 1)) p then
    if closest then (l.length : Int) - 1 else -1
  else
    match bsearchLoop l p (l.length + 1) 0 ((l.length : Int) - 1) with
    | (some middle, _) => middle
    | (none, low) =>
      if closest then
        if low ≥ (l.length : Int) then low - 1
        else if low < 0 then -1
        else if strLt (relAt l low) p then low else low - 1
      else -1

/-- `WritableTree.prototype._insertEntry`: insert by binary search, replacing
an entry with the same path. -/
def insertEntry (l : List Entry) (entry : Entry) : List Entry :=
  let index := searchByRelativePath l entry.relativePath true
  if index = -1 then entry :: l
  else if relAt l index = entry.relativePath then l.set index.toNat entry
  else l.take (index.toNat + 1) ++ entry :: l.drop (index.toNat + 1)

/-- `WritableTree.prototype._removeEntry`: remove the entry whose path
matches the given entry's, if present.  (The guards against a missing or
ROOT argument are not modelled; all call sites pass a real entry.) -/
def removeEntry (l : List Entry) (entry : Entry) : List Entry :=
  let index := searchByRelativePath l entry.relativePath false
  if index = -1 then l else l.eraseIdx index.toNat

/-- `a.startsWith b` on strings (shared.js `startsWith`, whose body is not in
the sources; modelled from the spec's prefix-ancestor description and JS
`String.prototype.startsWith`). -/
def strStartsWith (a b : String) : Bool :=
  b.data.isPrefixOf a.data

/-- shared.js `ensureSeparator`: append `/` unless the string is empty or
already ends in the separator. -/
def ensureSeparator (p : String) : String :=
  if p.data.isEmpty || p.data.getLast? = some '/' then p
  else String.mk (p.data ++ ['/'])

/-- shared.js `joinPaths` for two segments: `path.join` with `'.'` mapped
back to `''`.  On the already-normalized segments the source joins, this is
plain concatenation with a separator, dropping empty sides. -/
def joinPaths (a b : String) : String :=
  if a.data.isEmpty then b
  else if b.data.isEmpty then a
  else String.mk (a.data ++ '/' :: b.data)

/-- Modelled from the spec: shared.js `dirname` (its body is not in the
sources).  Returns the parent path: everything before the last separator,
`''` for a top-level name.  (Spec §4.x path utilities; the loop in
`shouldExcludeDirectory` requires `dirname` to reach `''`.) -/
def dirname (p : String) : String :=
  String.mk (((p.data.reverse.dropWhile (fun c => ¬ c = '/')).drop 1).reverse)

/-- Split a character list on `/`. -/
def splitOnSlash : List Char → List (List Char)
  | [] => [[]]
  | c :: cs =>
    let rest := splitOnSlash cs
    if c = '/' then [] :: rest
    else
      match rest with
      | [] => [[c]]
      | r :: rs => (c :: r) :: rs

/-- shared.js `normalizeRelativePath` (without the process-wide memo cache,
which only affects performance): split on the separator, drop empty and `.`
segments, resolve `..` against the previous segment, and fail when `..`
would escape the root.  The splice-based loop of the source is equivalent to
this stack-based pass. -/
def normalizeParts : List String → List String → Option (List String)
  | stack, [] => some stack.reverse
  | stack, part :: rest =>
    if part = "" || part = "." then normalizeParts stack rest
    else if part = ".." then
      match stack with
      | [] => none
      | _ :: stack => normalizeParts stack rest
    else normalizeParts (part :: stack) rest

/-- The errors thrown by the embedded tree operations. -/
inductive FsError where
  | invalidPath
  | stopped (operation : String)
  | rootWrite (operation : String)
  | enoent (operation relativePath : String)
  | eexist (operation relativePath : String)
  | eisdir (relativePath : String)
  | enotdir (operation relativePath : String)
  | eperm (relativePath : String)
  | symlinkTarget (operation relativePath : String)
  | enotempty
  | conflictingCapitalization
  | conflictingFileTypes
  | overwriteDisabled
  | incompatibleFilters
deriving DecidableEq, Repr

/-- shared.js `normalizeRelativePath` as a function into `Except`. -/
def normalizeRelativePath (relativePath : String) : Except FsError String :=
  match normalizeParts [] ((splitOnSlash relativePath.data).map String.mk) with
  | none => Except.error FsError.invalidPath
  | some parts => Except.ok (String.mk (String.intercalate "/" parts).data)

/-- shared.js `_commonPrefix`: the longest common prefix of `a` and `b`, cut
back to just after the last occurrence of `term` inside it. -/
def lcpChars : List Char → List Char → List Char
  | x :: xs, y :: ys => if x = y then x :: lcpChars xs ys else []
  | _, _ => []

/-- Keep the prefix of `cs` up to and including the last occurrence of
`term`; empty if `term` does not occur. -/
def cutAfterLast (term : Char) (cs : List Char) : List Char :=
  (cs.reverse.dropWhile (fun c => ¬ c = term)).reverse

/-- shared.js `_commonPrefix`. -/
def commonPrefix (a b : String) (term : Char) : String :=
  String.mk (cutAfterLast term (lcpChars a.data b.data))

/-- shared.js `_basename`: the scan from `length - 2` down to the last `/`
keeps everything through that slash, ignoring a final trailing character. -/
def basename (entry : Entry) : String :=
  String.mk (cutAfterLast '/' (entryRelativePath entry).data.dropLast)

/-- shared.js `_computeImpliedEntries`: a directory entry for every prefix of
`relativePath` ending at a `/`, prefixed with `basePath`. -/
def computeImpliedEntries (basePath relativePath : String) : List Entry :=
  (List.range relativePath.data.length).filterMap fun i =>
    if relativePath.data.getD i ' ' = '/' then
      some (Entry.fromPath (String.mk (basePath.data ++ relativePath.data.take (i + 1))))
    else none

/-- Entry comparison for `Array.prototype.sort` via shared.js
`compareEntries`; `true` when `compareEntries a b <= 0`. -/
def entryLe (a b : Entry) : Bool :=
  comparePaths a.relativePath b.relativePath ≤ 0

/-- The in-place expansion loop of shared.js `sortAndExpand` (after the
initial sort).  `path0` is the running `path_` accumulator. -/
def sortAndExpandLoop (path0 : String) : List Entry → List Entry
  | [] => []
  | entry :: rest =>
    let entryPath := entry.relativePath
    let path1 := commonPrefix path0 entryPath '/'
    let base := basename entry
    let entryBaseSansCommon := String.mk (base.data.drop path1.data.length)
    let impliedEntries := computeImpliedEntries path1 entryBaseSansCommon
    let newPath :=
      if entry.isDirectory then String.mk (entry.relativePath.data ++ ['/']) else base
    impliedEntries ++ entry :: sortAndExpandLoop newPath rest

/-- JS `Array.prototype.sort` with the `compareEntries` comparator: a stable
comparator sort, modelled as stable insertion sort. -/
def insertSorted (a : Entry) : List Entry → List Entry
  | [] => [a]
  | b :: rest => if entryLe a b then a :: b :: rest else b :: insertSorted a rest

/-- Stable sort of an entry array by `compareEntries`. -/
def sortEntries : List Entry → List Entry
  | [] => []
  | a :: rest => insertSorted a (sortEntries rest)

/-- shared.js `sortAndExpand`: sort, then insert implied intermediate
directory entries. -/
def sortAndExpand (entries : List Entry) : List Entry :=
  sortAndExpandLoop "" (sortEntries entries)

/-- The result of `_findByRelativePath`: the ROOT sentinel for `''`, a found
entry, a miss, or a delegation into another tree through an internal symlink
(`delegated` carries the symlink entry; cross-tree resolution is not
modelled, and the theorems below restrict to trees without internal
directory symlinks, where delegation cannot occur for the paths involved). -/
inductive FindResult where
  | root
  | notFound
  | found (e : Entry)
  | delegated (e : Entry)
deriving DecidableEq, Repr

/-- The backward walk of `WritableTree.prototype._findByRelativePath`: from
`index` downwards, find the first entry whose path is a string prefix of the
target; a directory symlink whose separated path prefixes the target
delegates, anything else is a miss.  Called with `index + 1` as fuel (the
walk decrements `index` until `-1`). -/
def findWalk (l : List Entry) (p : String) : Nat → FindResult
  | 0 => FindResult.notFound
  | n + 1 =>
    match l[n]? with
    | none => FindResult.notFound
    | some entry =>
      if strStartsWith p entry.relativePath then
        if entry.isSymbolicLink && entry.isDirectory then
          if strStartsWith p (ensureSeparator entry.relativePath) then
            FindResult.delegated entry
          else FindResult.notFound
        else FindResult.notFound
      else findWalk l p n

/-- Whether an entry's symlink is an external one. -/
def Entry.isExternal (e : Entry) : Bool :=
  match e.symlink with
  | some (Symlink.external _) => true
  | _ => false

/-- `WritableTree.prototype._findByRelativePath` over the tree's entries:
exact binary-search hit (resolving non-external symlinks into a delegation),
or the backward prefix walk. -/
def findByRelativePath (l : List Entry) (normalizedPath : String)
    (resolveSymlinks : Bool := true) : FindResult :=
  if normalizedPath = "" then FindResult.root
  else
    let index := searchByRelativePath l normalizedPath true
    if index = -1 then FindResult.notFound
    else
      match entryAt l index with
      | none => FindResult.notFound
      | some entry =>
        if entry.relativePath = normalizedPath then
          if resolveSymlinks && entry.isSymbolicLink && !entry.isExternal then
            FindResult.delegated entry
          else FindResult.found entry
        else findWalk l normalizedPath (index.toNat + 1)

/-- One tracked change of a WritableTree.  The tracker's doubly-linked list
is modelled as a list in link order; the `(operation, path) → node` hash is
recovered by searching for the most recently tracked matching node. -/
def untrackGo (operation : Op) (normalizedPath : String) :
    List Change → Option (List Change)
  | [] => none
  | c :: rest =>
    match untrackGo operation normalizedPath rest with
    | some rest2 => some (c :: rest2)
    | none =>
      if c.op = operation ∧ c.path = normalizedPath then some rest else none

/-- `WritableTree.prototype._untrack`: remove the change registered in the
hash for `(operation, path)` — the most recent matching one — returning
whether one was removed. -/
def untrack (changes : List Change) (operation : Op) (normalizedPath : String) :
    Bool × List Change :=
  match untrackGo operation normalizedPath changes with
  | some changes2 => (true, changes2)
  | none => (false, changes)

/-- `WritableTree.prototype._track` with its collapsing rules. -/
def track (changes : List Change) (operation : Op) (entry : Entry) : List Change :=
  match operation with
  | Op.create =>
    let u := untrack changes Op.unlink entry.relativePath
    if u.1 then u.2 ++ [⟨Op.change, entry.relativePath, entry⟩]
    else u.2 ++ [⟨Op.create, entry.relativePath, entry⟩]
  | Op.change =>
    let u1 := untrack changes Op.change entry.relativePath
    let u2 := untrack u1.2 Op.create entry.relativePath
    if u2.1 then u2.2 ++ [⟨Op.create, entry.relativePath, entry⟩]
    else u2.2 ++ [⟨Op.change, entry.relativePath, entry⟩]
  | Op.mkdir =>
    let u := untrack changes Op.rmdir entry.relativePath
    if u.1 then u.2 else u.2 ++ [⟨Op.mkdir, entry.relativePath, entry⟩]
  | Op.rmdir =>
    let u := untrack changes Op.mkdir entry.relativePath
    if u.1 then u.2 else u.2 ++ [⟨Op.rmdir, entry.relativePath, entry⟩]
  | Op.unlink =>
    let u1 := untrack changes Op.change entry.relativePath
    let u2 := untrack u1.2 Op.create entry.relativePath
    if u2.1 then u2.2 else u2.2 ++ [⟨Op.unlink, entry.relativePath, entry⟩]

/-- A filesystem side effect issued by a WritableTree (the log stands in for
the real disk). -/
inductive FsOp where
  | mkdirFs (path : String)
  | rmdirFs (path : String)
  | unlinkFs (path : String)
  | writeFileFs (path content : String)
  | writeFileExternalFs (target content : String)
  | symlinkFs (target path : String)
deriving DecidableEq, Repr

/-- The state of a WritableTree: its sorted entries array, started/stopped
state, tracked changes, and the log of filesystem writes it has issued. -/
structure WritableTree where
  entries : List Entry
  started : Bool
  changes : List Change
  log : List FsOp
deriving Repr

/-- `WritableTree.prototype.start`: clear the tracker and accept writes. -/
def WritableTree.start (t : WritableTree) : WritableTree :=
  { t with started := true, changes := [] }

/-- `WritableTree.prototype.stop`. -/
def WritableTree.stop (t : WritableTree) : WritableTree :=
  { t with started := false }

/-- `WritableTree.prototype._throwOnCommonErrors`: stopped tree, root
writes, missing or symlinked parent directory, symlinked target. -/
def throwOnCommonErrors (t : WritableTree) (operation : String)
    (normalizedPath relativePath : String) (allowRoot allowSymlinks : Bool) :
    Except FsError Unit := do
  if t.started = false then
    throw (FsError.stopped operation)
  if !allowRoot || normalizedPath ≠ "" then
    if normalizedPath = "" then
      throw (FsError.rootWrite operation)
    if operation ≠ "mkdirp" then
      let parentPath := dirname normalizedPath
      if parentPath ≠ "" then
        let parentIndex := searchByRelativePath t.entries parentPath false
        if parentIndex = -1 then
          throw (FsError.enoent operation relativePath)
        else
          match entryAt t.entries parentIndex with
          | some pe =>
            if pe.isSymbolicLink then
              throw (FsError.enoent operation relativePath)
          | none => pure ()
  if !allowSymlinks then
    let targetIndex := searchByRelativePath t.entries normalizedPath false
    if targetIndex ≠ -1 then
      match entryAt t.entries targetIndex with
      | some te =>
        if te.isSymbolicLink then
          throw (FsError.symlinkTarget operation relativePath)
      | none => pure ()
  pure ()

/-- `WritableTree.prototype.unlinkSync`.  (The `_cleanup` of a linked
projection is parent-child bookkeeping with no effect on this tree's
state.) -/
def WritableTree.unlinkSync (t : WritableTree) (relativePath : String) :
    Except FsError WritableTree := do
  let normalizedPath ← normalizeRelativePath relativePath
  throwOnCommonErrors t "unlink" normalizedPath relativePath false true
  match findByRelativePath t.entries normalizedPath false with
  | FindResult.found entry =>
    if !entry.isSymbolicLink && entry.isDirectory then
      throw (FsError.eperm relativePath)
    else
      let operation := if entry.isDirectory then Op.rmdir else Op.unlink
      pure { t with
        log := t.log ++ [FsOp.unlinkFs normalizedPath],
        changes := track t.changes operation entry,
        entries := removeEntry t.entries entry }
  | FindResult.notFound => throw (FsError.enoent "unlink" relativePath)
  | FindResult.root => throw (FsError.enoent "unlink" relativePath)
  | FindResult.delegated _ => throw (FsError.enoent "unlink" relativePath)

/-- `WritableTree.prototype.writeFileSync`, parameterized by the checksum
function (md5hex is an external library). -/
def WritableTree.writeFileSync (md5hex : String → String) (t : WritableTree)
    (relativePath content : String) (now : Int) : Except FsError WritableTree := do
  let normalizedPath ← normalizeRelativePath relativePath
  throwOnCommonErrors t "writeFile" normalizedPath relativePath false false
  let result := findByRelativePath t.entries normalizedPath
  match result with
  | FindResult.root => throw (FsError.eisdir relativePath)
  | FindResult.delegated _ => throw (FsError.eisdir relativePath)
  | FindResult.found entry =>
    if entry.isDirectory then
      throw (FsError.eisdir relativePath)
    else
      let t1 :=
        if entry.isSymbolicLink && entry.isExternal then
          match entry.symlink with
          | some (Symlink.external target) =>
            { t with log := t.log ++ [FsOp.writeFileExternalFs target content] }
          | _ => t
        else t
      let checksum := md5hex content
      if entry.checksum = some checksum then
        pure t1
      else
        let newEntry := Entry.make normalizedPath (some content.data.length)
          (some now) entry.mode (some checksum)
        pure { t1 with
          log := t1.log ++ [FsOp.writeFileFs normalizedPath content],
          changes := track t1.changes Op.change newEntry,
          entries := insertEntry t1.entries newEntry }
  | FindResult.notFound =>
    let checksum := md5hex content
    let newEntry := Entry.make normalizedPath (some content.data.length)
      (some now) FILE_MODE (some checksum)
    pure { t with
      log := t.log ++ [FsOp.writeFileFs normalizedPath content],
      changes := track t.changes Op.create newEntry,
      entries := insertEntry t.entries newEntry }

/-- `p` lies in the subtree rooted at `q`: it is `q` itself or extends
`q`-with-separator. -/
def InSubtree (q p : String) : Prop :=
  p = q ∨ strStartsWith p (ensureSeparator q) = true

/-- JS `String.prototype.toLowerCase` as used by the capitalization guard
(the source comments that `toLowerCase` merely approximates HFS+/NTFS case
folding; the guard theorem is parametric in the fold, this is the concrete
ASCII instance used by witnesses). -/
def strToLower (s : String) : String := String.mk (s.data.map Char.toLower)

/-- The `lowerCaseNames` loop of `FSMergeTree.prototype._mergeRelativePath`:
scan all names in tree order, record the first spelling seen for each
case-folded form (`lowerCaseNames[lowerCaseName] === undefined` sets it once),
and fail with the conflicting-capitalizations merge error when a later name
folds to a recorded form but spells differently.  The object keyed by folded
name is an association list. -/
def capsScan (toLower : String → String) :
    List (String × String) → List String →
    Except FsError (List (String × String))
  | seen, [] => Except.ok seen
  | seen, n :: rest =>
    match seen.lookup (toLower n) with
    | none => capsScan toLower ((toLower n, n) :: seen) rest
    | some originalName =>
      if originalName = n then capsScan toLower seen rest
      else Except.error FsError.conflictingCapitalization

/-- The `fileInfo` loop of `_mergeRelativePath` reduced to its guards, over
flattened `(fileName, isDirectory)` pairs in tree order: a second occurrence
of a name with a different kind is the conflicting-file-types error; a second
occurrence of a file (not directory) without `overwrite` is the overwrite
error.  (`fileInfo[fileName].isDirectory` keeps the first kind seen.) -/
def infoScan (overwrite : Bool) :
    List (String × Bool) → List (String × Bool) →
    Except FsError (List (String × Bool))
  | info, [] => Except.ok info
  | info, (n, d) :: rest =>
    match info.lookup n with
    | none => infoScan overwrite ((n, d) :: info) rest
    | some d0 =>
      if d0 ≠ d then Except.error FsError.conflictingFileTypes
      else if !d && !overwrite then Except.error FsError.overwriteDisabled
      else infoScan overwrite info rest

/-- The guard phases of `_mergeRelativePath` at one directory level:
`names` holds each input tree's sorted `readdirSync` listing, `isDir i n`
stands for the `statSync`-based directory test of name `n` in tree `i`, and
`overwrite` is the option.  The capitalization guard runs first and never
consults `overwrite`. -/
def mergeRelativePathGuards (toLower : String → String)
    (isDir : Nat → String → Bool) (overwrite : Bool)
    (names : List (List String)) : Except FsError Unit := do
  let _ ← capsScan toLower [] names.flatten
  let _ ← infoScan overwrite []
    ((names.enum.map fun p => p.2.map fun n => (n, isDir p.1 n)).flatten)
  Except.ok ()

/-- A Projection filter matcher: a string pattern (compiled to a Minimatch by
`_setFilter`) or a RegExp pattern.  The source also allows function matchers;
those are outside this model (their equality, used by the setters' no-change
check, is reference-based), and the matching semantics of Minimatch/RegExp
are an oracle parameter of every theorem that touches them. -/
inductive Matcher where
  | str (pattern : String)
  | regex (pattern : String)
deriving DecidableEq, Repr

/-- The filter state of a Projection: `_cwd`, `_files`, `_include`,
`_exclude`, and the derived `_processedFiles` / `_entriesFromFiles`
(`undefined` is `none`; `_include`/`_exclude` start effectively empty: JS
`undefined` and `[]` behave alike in every truthiness test the source
performs on them). -/
structure ProjState where
  cwd : String
  files : Option (List String)
  incl : List Matcher
  excl : List Matcher
  processedFiles : Option (List String)
  entriesFromFiles : Option (List Entry)
deriving Repr

/-- The state of a Projection before the constructor runs its setters. -/
def ProjState.initial : ProjState :=
  { cwd := "", files := none, incl := [], excl := [],
    processedFiles := none, entriesFromFiles := none }

/-- `newValue.map(path => shared.normalizeRelativePath(path))`: the first
normalization failure propagates as the thrown error. -/
def normalizeAll : List String → Except FsError (List String)
  | [] => Except.ok []
  | p :: rest => do
    let np ← normalizeRelativePath p
    let nrest ← normalizeAll rest
    Except.ok (np :: nrest)

/-- The Projection `cwd` setter: `this._cwd = normalizeRelativePath(value || '')`. -/
def setCwd (st : ProjState) (value : Option String) : Except FsError ProjState := do
  let ncwd ← normalizeRelativePath (value.getD "")
  Except.ok { st with cwd := ncwd }

/-- The Projection `files` setter.  `undefined` is mapped to `null` (both are
`none` here); the JS no-change test (`===` or same length and elementwise
`===`) is value equality of the optional lists; the incompatibility test is
the source's `newValue && (this._exclude && this._exclude.length) ||
(this._include && this._include.length)`, which by JS precedence is
`(newValue && exclude.length) || include.length`.  On a change to a non-null
list, the paths are normalized and expanded into `_entriesFromFiles`. -/
def setFiles (st : ProjState) (value : Option (List String)) :
    Except FsError ProjState :=
  let newValue := value
  if newValue = st.files then Except.ok st
  else if (newValue.isSome && !st.excl.isEmpty) || !st.incl.isEmpty then
    Except.error FsError.incompatibleFilters
  else
    match newValue with
    | some fs => do
      let processed ← normalizeAll fs
      Except.ok { st with files := some fs, processedFiles := some processed,
                          entriesFromFiles :=
                            some (sortAndExpand (processed.map Entry.fromPath)) }
    | none =>
      Except.ok { st with files := none, processedFiles := none,
                          entriesFromFiles := none }

/-- `Projection.prototype._setFilter` for `include` (`isInclude = true`) and
`exclude`: `value || []`, the typed model's matchers always pass the
RegExp/string/function validation, the no-change test is value equality, and
a non-empty new filter is incompatible with a present `files` list.  (The
`_processedInclude`/`_processedExclude` Minimatch compilation is the identity
here: matching is an oracle parameter.) -/
def setFilter (st : ProjState) (isInclude : Bool) (value : Option (List Matcher)) :
    Except FsError ProjState :=
  let newValue := value.getD []
  let oldValue := if isInclude then st.incl else st.excl
  if newValue = oldValue then Except.ok st
  else if !newValue.isEmpty && st.files.isSome then
    Except.error FsError.incompatibleFilters
  else
    Except.ok (if isInclude then { st with incl := newValue }
               else { st with excl := newValue })

/-- The Projection constructor's filter initialization: the `cwd`, `files`,
`include` and `exclude` setters run in that order on the fresh state. -/
def mkProjection (cwd : Option String) (files : Option (List String))
    (incl excl : Option (List Matcher)) : Except FsError ProjState := do
  let st0 ← setCwd ProjState.initial cwd
  let st1 ← setFiles st0 files
  let st2 ← setFilter st1 true incl
  let st3 ← setFilter st2 false excl
  Except.ok st3

/-- `normalizedPath.substring(n)` for a character count `n`. -/
def strSubstrFrom (s : String) (n : Nat) : String := String.mk (s.data.drop n)

/-- fs-merge-tree.js `calculateDirectoryDepth`: `split(path.sep).length - 1`. -/
def calculateDirectoryDepth (p : String) : Nat := (splitOnSlash p.data).length - 1

/-- The `while (currentDir !== '')` ancestor loop of `shouldExcludeDirectory`,
with fuel (each `dirname` strictly shortens a non-empty path). -/
def shouldExcludeDirectoryGo (matchFn : String → Matcher → Bool)
    (exclude : List Matcher) : Nat → String → Bool
  | 0, _ => false
  | fuel + 1, currentDir =>
    if currentDir = "" then false
    else if exclude.any (fun m => matchFn currentDir m) then true
    else shouldExcludeDirectoryGo matchFn exclude fuel (dirname currentDir)

/-- fs-merge-tree.js `shouldExcludeDirectory`: a directory is excluded when
any ancestor, or the path itself, matches an exclude matcher. -/
def shouldExcludeDirectory (matchFn : String → Matcher → Bool) (p : String)
    (exclude : List Matcher) : Bool :=
  if exclude.length > 0 then
    shouldExcludeDirectoryGo matchFn exclude (p.data.length + 1) (dirname p) ||
      exclude.any (fun m => matchFn p m)
  else false

/-- fs-merge-tree.js `filterMatches` as invoked from the Projection `entries`
getter, where `_processedFiles` is `null` (a present files list short-circuits
the getter before any `_filterMatches` call, so the files branch — and the
unreachable files-with-include/exclude throw — is not taken). -/
def filterMatchesNullFiles (matchFn : String → Matcher → Bool) (cwd : String)
    (incl excl : List Matcher) (normalizedPath : String) : Bool :=
  if !strStartsWith normalizedPath (ensureSeparator cwd) || cwd = normalizedPath then
    false
  else
    let p := if ¬ cwd = "" then
        strSubstrFrom normalizedPath (ensureSeparator cwd).data.length
      else normalizedPath
    if shouldExcludeDirectory matchFn p excl then false
    else if incl.length > 0 && incl.all (fun m => !matchFn p m) then false
    else true

/-- fs-merge-tree.js `mayContain`: when every include matcher is a Minimatch
(a compiled string pattern), the partial-match oracle decides whether the
directory could contain matches; otherwise (no includes, or any non-glob
matcher) it conservatively answers true. -/
def mayContain (partialMatchFn : String → Matcher → Bool) (p : String)
    (incl : List Matcher) : Bool :=
  if !incl.isEmpty &&
      incl.all (fun m => match m with | Matcher.str _ => true | _ => false) then
    incl.any (fun m => partialMatchFn p m)
  else true

/-- The closure state of the `entries` getter's `filterEntries` walk: the
pending non-matching directory stack, its depth (`directoryDepth` can go
negative in JS, hence `Int`), and the accumulated entries. -/
structure DescentAcc where
  stack : List Entry
  depth : Int
  acc : List Entry

/-- The `while (directoryStack.length && directoryDepth >= newDirectoryDepth)`
pop loop; the stack length bounds its iterations, supplied as fuel. -/
def popWhile (newDepth : Nat) : Nat → List Entry → Int → List Entry × Int
  | 0, stack, depth => (stack, depth)
  | fuel + 1, stack, depth =>
    if stack.length ≠ 0 ∧ (newDepth : Int) ≤ depth then
      popWhile newDepth fuel stack.dropLast (depth - 1)
    else (stack, depth)

/-- The body of `filterEntries`, fuelled: processes the worklist of this
directory level's entries (already rebased to root-relative paths) and
recurses into matching-capable subdirectories. -/
def descend (getDir : String → List Entry)
    (matchFn partialMatchFn : String → Matcher → Bool) (st : ProjState) :
    Nat → DescentAcc → List Entry → DescentAcc
  | 0, acc, _ => acc
  | _, acc, [] => acc
  | fuel + 1, acc, entry :: rest =>
    let acc2 :=
      if entry.isDirectory &&
          shouldExcludeDirectory matchFn
            (strSubstrFrom entry.relativePath (ensureSeparator st.cwd).data.length)
            st.excl then
        acc
      else
        let acc1 :=
          if filterMatchesNullFiles matchFn st.cwd st.incl st.excl
              entry.relativePath then
            { stack := [], depth := 0,
              acc := acc.acc ++
                (acc.stack.filter fun d =>
                  strStartsWith entry.relativePath
                    (ensureSeparator d.relativePath)) ++ [entry] }
          else if entry.isDirectory then
            let newDepth := calculateDirectoryDepth entry.relativePath
            let popped := popWhile newDepth acc.stack.length acc.stack acc.depth
            { stack := popped.1 ++ [entry], depth := newDepth, acc := acc.acc }
          else acc
        if entry.isDirectory &&
            mayContain partialMatchFn
              (strSubstrFrom entry.relativePath
                (ensureSeparator st.cwd).data.length) st.incl then
          descend getDir matchFn partialMatchFn st fuel acc1
            ((getDir entry.relativePath).map fun e =>
              Entry.clone e (some (joinPaths entry.relativePath e.relativePath)))
        else acc1
    descend getDir matchFn partialMatchFn st fuel acc2 rest

/-- The Projection `entries` getter: a present `_entriesFromFiles` (set
whenever `files` is a non-null array — the empty array included, since an
empty JS array is truthy) is cloned and returned; otherwise the getter walks
the parent (`getDir` stands for `_getEntriesForDirectory`), filters, rebases
the results to the cwd, and sorts them. -/
def projEntries (getDir : String → List Entry)
    (matchFn partialMatchFn : String → Matcher → Bool) (fuel : Nat)
    (st : ProjState) : List Entry :=
  match st.entriesFromFiles with
  | some efs => efs.map fun e => Entry.clone e
  | none =>
    let final := descend getDir matchFn partialMatchFn st fuel ⟨[], 0, []⟩
      ((getDir st.cwd).map fun e =>
        Entry.clone e (some (joinPaths st.cwd e.relativePath)))
    sortEntries (final.acc.map fun e =>
      Entry.clone e (some (strSubstrFrom e.relativePath
        (ensureSeparator st.cwd).data.length)))

/-- The FacadeTree `paths` getter: `entries.map(e => e.relativePath)`. -/
def projPaths (getDir : String → List Entry)
    (matchFn partialMatchFn : String → Matcher → Bool) (fuel : Nat)
    (st : ProjState) : List String :=
  (projEntries getDir matchFn partialMatchFn fuel st).map fun e => e.relativePath

/- ===================================================================== -/
/- Theorems -/
/- ===================================================================== -/

theorem strEq_of_data {a b : String} (h : a.data = b.data) : a = b :=
  congrArg String.mk h

theorem charListLt_irrefl : ∀ l : List Char, charListLt l l = false
  | [] => rfl
  | a :: as => by simp [charListLt, lt_irrefl, charListLt_irrefl as]

theorem strLt_irrefl (s : String) : strLt s s = false :=
  charListLt_irrefl s.data

theorem charListLt_cons_iff {x y : Char} {as bs : List Char} :
    charListLt (x :: as) (y :: bs) = true ↔
      (x < y ∨ (x = y ∧ charListLt as bs = true)) := by
  simp only [charListLt]
  rcases lt_trichotomy x y with h | h | h
  · simp [h]
  · subst h
    simp [lt_irrefl]
  · have hne : x ≠ y := ne_of_gt h
    simp [asymm h, h, hne]

theorem charListLt_trans : ∀ {a b c : List Char},
    charListLt a b = true → charListLt b c = true → charListLt a c = true
  | _, [], _, h1, _ => by simp [charListLt] at h1
  | [], _ :: _, [], _, h2 => by simp [charListLt] at h2
  | [], _ :: _, _ :: _, _, _ => rfl
  | _ :: _, _ :: _, [], _, h2 => by simp [charListLt] at h2
  | x :: as, y :: bs, z :: cs, h1, h2 => by
    rw [charListLt_cons_iff] at h1 h2 ⊢
    rcases h1 with h1 | ⟨rfl, h1⟩
    · rcases h2 with h2 | ⟨rfl, h2⟩
      · exact Or.inl (lt_trans h1 h2)
      · exact Or.inl h1
    · rcases h2 with h2 | ⟨rfl, h2⟩
      · exact Or.inl h2
      · exact Or.inr ⟨rfl, charListLt_trans h1 h2⟩

theorem strLt_trans {a b c : String} (h1 : strLt a b = true) (h2 : strLt b c = true) :
    strLt a c = true :=
  charListLt_trans h1 h2

theorem charListLt_connex : ∀ {a b : List Char},
    charListLt a b = false → charListLt b a = false → a = b
  | [], [], _, _ => rfl
  | [], _ :: _, h1, _ => by simp [charListLt] at h1
  | _ :: _, [], _, h2 => by simp [charListLt] at h2
  | x :: as, y :: bs, h1, h2 => by
    have h1' : ¬(x < y ∨ (x = y ∧ charListLt as bs = true)) := by
      rw [← charListLt_cons_iff]
      simp [h1]
    have h2' : ¬(y < x ∨ (y = x ∧ charListLt bs as = true)) := by
      rw [← charListLt_cons_iff]
      simp [h2]
    push_neg at h1' h2'
    have hxy : x = y := le_antisymm h2'.1 h1'.1
    subst hxy
    have b1 : charListLt as bs = false := by
      cases hh : charListLt as bs
      · rfl
      · exact absurd hh (h1'.2 rfl)
    have b2 : charListLt bs as = false := by
      cases hh : charListLt bs as
      · rfl
      · exact absurd hh (h2'.2 rfl)
    rw [charListLt_connex b1 b2]

theorem strLt_connex {a b : String} (h1 : strLt a b = false) (h2 : strLt b a = false) :
    a = b :=
  strEq_of_data (charListLt_connex h1 h2)

theorem strLt_asymm {a b : String} (h : strLt a b = true) : strLt b a = false := by
  by_contra hc
  have hba : strLt b a = true := by
    cases hh : strLt b a
    · exact absurd hh hc
    · rfl
  have := strLt_trans h hba
  rw [strLt_irrefl] at this
  exact absurd this (by simp)

theorem entryRelativePath_of_wf {e : Entry} (h : Entry.WF e) :
    entryRelativePath e = e.relativePath := by
  unfold entryRelativePath chompSeparator
  by_cases hd : e.isDirectory = true
  · have hend := h hd
    simp [hd, hend]
  · simp [hd]

theorem addCommand_path (e : Entry) : (addCommand e).path = entryRelativePath e := rfl

theorem removeCommand_path (e : Entry) : (removeCommand e).path = entryRelativePath e := rfl

theorem updateCommand_path (e : Entry) : (updateCommand e).path = entryRelativePath e := rfl

theorem addCommand_isRemove (e : Entry) : (addCommand e).op.isRemove = false := by
  cases h : e.isDirectory <;> simp [addCommand, h, Op.isRemove]

theorem removeCommand_isRemove (e : Entry) : (removeCommand e).op.isRemove = true := by
  cases h : e.isDirectory <;> simp [removeCommand, h, Op.isRemove]

theorem updateCommand_isRemove (e : Entry) : (updateCommand e).op.isRemove = false := by
  simp [updateCommand, Op.isRemove]

theorem calculatePatchLoop_nil_left (isEq : Entry → Entry → Bool) (fuel : Nat)
    (theirs : List Entry) :
    calculatePatchLoop isEq fuel [] theirs = ([], theirs.map addCommand) := by
  cases fuel <;> cases theirs <;> rfl

theorem calculatePatchLoop_nil_right (isEq : Entry → Entry → Bool) (fuel : Nat)
    (x : Entry) (ours : List Entry) :
    calculatePatchLoop isEq fuel (x :: ours) [] = ((x :: ours).map removeCommand, []) := by
  cases fuel <;> rfl

/-- Structural facts about the two accumulators of the diff walk: removal
paths are a subsequence of `ours`' paths, addition paths a subsequence of
`theirs`' paths, and the operations split into removes and adds. -/
theorem calculatePatchLoop_spec (isEq : Entry → Entry → Bool) :
    ∀ (fuel : Nat) (ours theirs : List Entry), ours.length + theirs.length ≤ fuel →
      (((calculatePatchLoop isEq fuel ours theirs).1.map Change.path).Sublist
          (ours.map entryRelativePath) ∧
        ((calculatePatchLoop isEq fuel ours theirs).2.map Change.path).Sublist
          (theirs.map entryRelativePath)) ∧
      ((∀ c ∈ (calculatePatchLoop isEq fuel ours theirs).1, c.op.isRemove = true) ∧
        (∀ c ∈ (calculatePatchLoop isEq fuel ours theirs).2, c.op.isRemove = false)) := by
  intro fuel
  induction fuel with
  | zero =>
    intro ours theirs h
    have h1 : ours = [] := by
      cases ours <;> simp_all
    have h2 : theirs = [] := by
      cases theirs <;> simp_all
    subst h1; subst h2
    simp [calculatePatchLoop_nil_left]
  | succ fuel ih =>
    intro ours theirs h
    match ours, theirs with
    | [], theirs =>
      rw [calculatePatchLoop_nil_left]
      refine ⟨⟨List.nil_sublist _, ?_⟩, by simp, ?_⟩
      · rw [List.map_map]
        have hc : (Change.path ∘ addCommand) = entryRelativePath := rfl
        rw [hc]
      · intro c hc
        obtain ⟨e, _, rfl⟩ := List.mem_map.mp hc
        exact addCommand_isRemove e
    | x :: ours, [] =>
      rw [calculatePatchLoop_nil_right]
      refine ⟨⟨?_, List.nil_sublist _⟩, ?_, by simp⟩
      · rw [List.map_map]
        have hc : (Change.path ∘ removeCommand) = entryRelativePath := rfl
        rw [hc]
      · intro c hc
        obtain ⟨e, _, rfl⟩ := List.mem_map.mp hc
        exact removeCommand_isRemove e
    | x :: ours, y :: theirs =>
      have hlen1 : ours.length + (y :: theirs).length ≤ fuel := by
        simp at h ⊢; omega
      have hlen2 : (x :: ours).length + theirs.length ≤ fuel := by
        simp at h ⊢; omega
      have hlen3 : ours.length + theirs.length ≤ fuel := by
        simp at h ⊢; omega
      have IH1 := ih ours (y :: theirs) hlen1
      have IH2 := ih (x :: ours) theirs hlen2
      have IH3 := ih ours theirs hlen3
      simp only [calculatePatchLoop]
      split_ifs with h1 h2 h3 h4
      · refine ⟨⟨?_, ?_⟩, ?_, ?_⟩
        · simpa [removeCommand_path] using IH1.1.1.cons₂ (entryRelativePath x)
        · exact IH1.1.2
        · intro c hc
          rcases List.mem_cons.mp hc with rfl | hc
          · exact removeCommand_isRemove x
          · exact IH1.2.1 c hc
        · exact IH1.2.2
      · refine ⟨⟨?_, ?_⟩, ?_, ?_⟩
        · exact IH2.1.1
        · simpa [addCommand_path] using IH2.1.2.cons₂ (entryRelativePath y)
        · exact IH2.2.1
        · intro c hc
          rcases List.mem_cons.mp hc with rfl | hc
          · exact addCommand_isRemove y
          · exact IH2.2.2 c hc
      · refine ⟨⟨?_, ?_⟩, ?_, ?_⟩
        · exact IH3.1.1.cons _
        · exact IH3.1.2.cons _
        · exact IH3.2.1
        · exact IH3.2.2
      · refine ⟨⟨?_, ?_⟩, ?_, ?_⟩
        · exact IH3.1.1.cons _
        · simpa [updateCommand_path] using IH3.1.2.cons₂ (entryRelativePath y)
        · exact IH3.2.1
        · intro c hc
          rcases List.mem_cons.mp hc with rfl | hc
          · exact updateCommand_isRemove y
          · exact IH3.2.2 c hc
      · refine ⟨⟨?_, ?_⟩, ?_, ?_⟩
        · simpa [removeCommand_path] using IH3.1.1.cons₂ (entryRelativePath x)
        · simpa [addCommand_path] using IH3.1.2.cons₂ (entryRelativePath y)
        · intro c hc
          rcases List.mem_cons.mp hc with rfl | hc
          · exact removeCommand_isRemove x
          · exact IH3.2.1 c hc
        · intro c hc
          rcases List.mem_cons.mp hc with rfl | hc
          · exact addCommand_isRemove y
          · exact IH3.2.2 c hc

/-- C1: the patch produced by `calculatePatch` on two sorted unique entry
arrays (whose entries satisfy the spec's path invariant) splits into a block
of remove operations followed by a block of add/update operations; the
removes are in strictly descending (reverse-lexicographic) path order and the
adds/updates in strictly ascending path order. -/
theorem C1_calculatePatch_ordering (isEq : Entry → Entry → Bool) (ours theirs : List Entry)
    (h1 : SortedU ours) (h2 : SortedU theirs)
    (w1 : ∀ e ∈ ours, Entry.WF e) (w2 : ∀ e ∈ theirs, Entry.WF e) :
    ∃ removes adds,
      calculatePatch isEq ours theirs = removes ++ adds ∧
      (∀ c ∈ removes, c.op.isRemove = true) ∧
      (∀ c ∈ adds, c.op.isRemove = false) ∧
      removes.Pairwise (fun a b => strLt b.path a.path = true) ∧
      adds.Pairwise (fun a b => strLt a.path b.path = true) := by
  obtain ⟨⟨s1, s2⟩, o1, o2⟩ :=
    calculatePatchLoop_spec isEq (ours.length + theirs.length) ours theirs le_rfl
  refine ⟨(calculatePatchLoop isEq (ours.length + theirs.length) ours theirs).1.reverse,
    (calculatePatchLoop isEq (ours.length + theirs.length) ours theirs).2, rfl,
    ?_, o2, ?_, ?_⟩
  · intro c hc
    exact o1 c (List.mem_reverse.mp hc)
  · rw [List.pairwise_reverse]
    have hm : (ours.map entryRelativePath).Pairwise (fun a b => strLt a b = true) := by
      have heq : ours.map entryRelativePath = ours.map (fun e => e.relativePath) :=
        List.map_congr_left fun e he => entryRelativePath_of_wf (w1 e he)
      rw [heq]
      exact List.pairwise_map.mpr h1
    exact List.pairwise_map.mp (List.Pairwise.sublist s1 hm)
  · have hm : (theirs.map entryRelativePath).Pairwise (fun a b => strLt a b = true) := by
      have heq : theirs.map entryRelativePath = theirs.map (fun e => e.relativePath) :=
        List.map_congr_left fun e he => entryRelativePath_of_wf (w2 e he)
      rw [heq]
      exact List.pairwise_map.mpr h2
    exact List.pairwise_map.mp (List.Pairwise.sublist s2 hm)

/-- Witness for C1 at a concrete input. -/
theorem C1_calculatePatch_ordering_witness :
    ∃ removes adds,
      calculatePatch defaultIsEqual [Entry.fromPath "b", Entry.fromPath "c/"]
          [Entry.fromPath "a"] = removes ++ adds ∧
      (∀ c ∈ removes, c.op.isRemove = true) ∧
      (∀ c ∈ adds, c.op.isRemove = false) ∧
      removes.Pairwise (fun a b => strLt b.path a.path = true) ∧
      adds.Pairwise (fun a b => strLt a.path b.path = true) :=
  C1_calculatePatch_ordering defaultIsEqual
    [Entry.fromPath "b", Entry.fromPath "c/"] [Entry.fromPath "a"]
    (by decide) (by decide) (by decide) (by decide)

/-- C6: `defaultIsEqual` returns true whenever both entries are directories,
and otherwise exactly when the two entries agree on size, on mtime coerced to
a number (false when either side is undefined, since `+undefined` is `NaN`),
and on mode. -/
theorem C6_defaultIsEqual_spec (a b : Entry) :
    defaultIsEqual a b =
      ((a.isDirectory && b.isDirectory) ||
        (a.size = b.size && numEq a.mtime b.mtime && a.mode = b.mode)) := by
  unfold defaultIsEqual
  by_cases h : (a.isDirectory && b.isDirectory) = true <;> simp [h]

/-- An entry whose mtime is defined (or which is a directory) is equal to
itself under `defaultIsEqual`. -/
theorem defaultIsEqual_refl {e : Entry} (h : e.isFile = true → e.mtime.isSome) :
    defaultIsEqual e e = true := by
  unfold defaultIsEqual
  by_cases hd : e.isDirectory = true
  · simp [hd]
  · have hf : e.isFile = true := by simp [Entry.isFile, hd]
    obtain ⟨t, ht⟩ := Option.isSome_iff_exists.mp (h hf)
    simp [hd, ht, numEq]

/-- The diff walk of a tree against itself produces no commands when every
entry is self-equal under the supplied equality. -/
theorem calculatePatchLoop_self (isEq : Entry → Entry → Bool) :
    ∀ (fuel : Nat) (l : List Entry), 2 * l.length ≤ fuel →
      (∀ e ∈ l, isEq e e = true) → calculatePatchLoop isEq fuel l l = ([], []) := by
  intro fuel
  induction fuel with
  | zero =>
    intro l hlen _
    have hnil : l = [] := by cases l <;> simp_all
    subst hnil; rfl
  | succ fuel ih =>
    intro l hlen href
    match l with
    | [] => rfl
    | x :: l =>
      have hx : isEq x x = true := href x (List.mem_cons_self _ _)
      have hlen2 : 2 * l.length ≤ fuel := by simp at hlen; omega
      simp only [calculatePatchLoop, strLt_irrefl, if_false, hx, if_true]
      exact ih l hlen2 fun e he => href e (List.mem_cons_of_mem _ he)

/-- C5 (amended): diffing a sorted unique tree against itself with the
default equality yields the empty patch, provided every file entry has a
defined mtime.  (Without that proviso the claim fails: see the
counterexample.) -/
theorem C5_calculatePatch_self (l : List Entry) (hs : SortedU l)
    (hm : ∀ e ∈ l, e.isFile = true → e.mtime.isSome) :
    calculatePatch defaultIsEqual l l = [] := by
  unfold calculatePatch
  rw [calculatePatchLoop_self defaultIsEqual _ l (by omega)
    (fun e he => defaultIsEqual_refl (hm e he))]
  rfl

/-- Witness for C5 (amended) at a concrete input. -/
theorem C5_calculatePatch_self_witness :
    calculatePatch defaultIsEqual [Entry.fromPath "a"] [Entry.fromPath "a"] = [] :=
  C5_calculatePatch_self [Entry.fromPath "a"] (by decide) (by decide)

/-- C5 counterexample: a ManualTree whose single (sorted, unique) file entry
has an undefined mtime diffs against itself to a non-empty patch, because
`+undefined === +undefined` is `NaN === NaN`, which is false in JS. -/
theorem C5_counterexample :
    SortedU [Entry.make "a" none none FILE_MODE] ∧
    calculatePatch defaultIsEqual [Entry.make "a" none none FILE_MODE]
        [Entry.make "a" none none FILE_MODE] =
      [⟨Op.change, "a", Entry.make "a" none none FILE_MODE⟩] := by
  constructor
  · decide
  · decide

/-- C7: when the walk meets the same path on both sides with entries that are
unequal and of different kinds, the patch contains `remove(old)` as the last
element of the remove block, directly followed by `add(new)` as the first
element of the add block (so the remove is ordered before the add); scenario
S3 (file `subdir1` versus directory `subdir1` containing `subdir1/foo`)
concretely yields `[unlink subdir1, mkdir subdir1, create subdir1/foo]`. -/
theorem C7_kind_change (isEq : Entry → Entry → Bool) (x y : Entry)
    (ours theirs : List Entry)
    (hp : entryRelativePath x = entryRelativePath y)
    (hne : isEq x y = false)
    (hk : ¬ (x.isFile = y.isFile)) :
    (∃ r a, calculatePatch isEq (x :: ours) (y :: theirs) =
        r ++ removeCommand x :: addCommand y :: a) ∧
    (calculatePatch defaultIsEqual [Entry.fromPath "subdir1"]
          [Entry.fromPath "subdir1/", Entry.fromPath "subdir1/foo"]).map
        (fun c => (c.op, c.path)) =
      [(Op.unlink, "subdir1"), (Op.mkdir, "subdir1"), (Op.create, "subdir1/foo")] := by
  constructor
  · unfold calculatePatch
    have hfl : (x :: ours).length + (y :: theirs).length =
        (ours.length + (y :: theirs).length) + 1 := by
      simp [List.length_cons]; omega
    rw [hfl]
    simp only [calculatePatchLoop, hp, strLt_irrefl, if_false, hne, if_neg hk]
    refine ⟨(calculatePatchLoop isEq (ours.length + (y :: theirs).length) ours
      theirs).1.reverse, (calculatePatchLoop isEq (ours.length + (y :: theirs).length)
      ours theirs).2, ?_⟩
    simp
  · decide

/-- Witness for C7 at the S3 input. -/
theorem C7_kind_change_witness :
    (∃ r a, calculatePatch defaultIsEqual
        (Entry.fromPath "subdir1" :: [])
        (Entry.fromPath "subdir1/" :: [Entry.fromPath "subdir1/foo"]) =
        r ++ removeCommand (Entry.fromPath "subdir1") ::
          addCommand (Entry.fromPath "subdir1/") :: a) ∧
    (calculatePatch defaultIsEqual [Entry.fromPath "subdir1"]
          [Entry.fromPath "subdir1/", Entry.fromPath "subdir1/foo"]).map
        (fun c => (c.op, c.path)) =
      [(Op.unlink, "subdir1"), (Op.mkdir, "subdir1"), (Op.create, "subdir1/foo")] :=
  C7_kind_change defaultIsEqual (Entry.fromPath "subdir1") (Entry.fromPath "subdir1/")
    [] [Entry.fromPath "subdir1/foo"] (by decide) (by decide) (by decide)

theorem relAt_of_lt {l : List Entry} {i : Int} (h0 : 0 ≤ i) (h1 : i < (l.length : Int)) :
    ∃ (hn : i.toNat < l.length), relAt l i = l[i.toNat].relativePath ∧
      entryAt l i = some l[i.toNat] := by
  have hn : i.toNat < l.length := by omega
  refine ⟨hn, ?_, ?_⟩
  · unfold relAt entryAt
    rw [if_neg (by omega : ¬ i < 0), List.getElem?_eq_getElem hn]
  · unfold entryAt
    rw [if_neg (by omega : ¬ i < 0), List.getElem?_eq_getElem hn]

theorem sorted_relAt_lt {l : List Entry} (hs : SortedU l) {i j : Int}
    (h0 : 0 ≤ i) (hij : i < j) (hj : j < (l.length : Int)) :
    strLt (relAt l i) (relAt l j) = true := by
  obtain ⟨hi, r1, _⟩ := relAt_of_lt h0 (lt_trans hij hj)
  obtain ⟨hjn, r2, _⟩ := relAt_of_lt (by omega : (0:Int) ≤ j) hj
  rw [r1, r2]
  exact List.pairwise_iff_getElem.mp hs i.toNat j.toNat hi hjn (by omega)

/-- Correctness of the binary-search loop over a sorted entries array: a
`some` result names an index holding the target path; a `none` result's final
`low` splits the array into strictly-smaller paths below and strictly-greater
paths from `low` on. -/
theorem bsearchLoop_spec (l : List Entry) (p : String) (hs : SortedU l) :
    ∀ (fuel : Nat) (low high : Int),
      (high + 1 - low).toNat < fuel →
      0 ≤ low → low ≤ high + 1 → high < (l.length : Int) →
      (∀ i : Int, 0 ≤ i → i < low → strLt (relAt l i) p = true) →
      (∀ i : Int, high < i → i < (l.length : Int) → strLt p (relAt l i) = true) →
      (∀ mid rest, bsearchLoop l p fuel low high = (some mid, rest) →
          0 ≤ mid ∧ mid < (l.length : Int) ∧ relAt l mid = p) ∧
      (∀ flow, bsearchLoop l p fuel low high = (none, flow) →
          0 ≤ flow ∧ flow ≤ (l.length : Int) ∧
          (∀ i : Int, 0 ≤ i → i < flow → strLt (relAt l i) p = true) ∧
          (∀ i : Int, flow ≤ i → i < (l.length : Int) → strLt p (relAt l i) = true)) := by
  intro fuel
  induction fuel with
  | zero =>
    intro low high hf
    exact absurd hf (by omega)
  | succ fuel ih =>
    intro low high hf h0 hlh1 hhl hbelow habove
    by_cases hlh : low ≤ high
    · have hmid1 : low ≤ low + (high - low) / 2 := by omega
      have hmid2 : low + (high - low) / 2 ≤ high := by omega
      by_cases heq : p = relAt l (low + (high - low) / 2)
      · constructor
        · intro mid rest hres
          simp only [bsearchLoop, if_pos hlh, if_pos heq, Prod.mk.injEq] at hres
          obtain ⟨hm, _⟩ := hres
          cases hm
          exact ⟨by omega, by omega, heq.symm⟩
        · intro flow hres
          simp only [bsearchLoop, if_pos hlh, if_pos heq, Prod.mk.injEq] at hres
          obtain ⟨hm, _⟩ := hres
          cases hm
      · by_cases hpm : strLt p (relAt l (low + (high - low) / 2)) = true
        · have hrec := ih low (low + (high - low) / 2 - 1) (by omega) h0 (by omega)
            (by omega) hbelow ?_
          · constructor
            · intro mid rest hres
              simp only [bsearchLoop, if_pos hlh, if_neg heq, if_pos hpm] at hres
              exact hrec.1 mid rest hres
            · intro flow hres
              simp only [bsearchLoop, if_pos hlh, if_neg heq, if_pos hpm] at hres
              exact hrec.2 flow hres
          · intro i hi1 hi2
            rcases lt_trichotomy i (low + (high - low) / 2) with hc | hc | hc
            · exact absurd hc (by omega)
            · cases hc
              exact hpm
            · rcases lt_or_ge i ((l.length : Int)) with hc2 | hc2
              · exact strLt_trans hpm (sorted_relAt_lt hs (by omega) hc hc2)
              · exact absurd hi2 (by omega)
        · have hmp : strLt (relAt l (low + (high - low) / 2)) p = true := by
            cases hh : strLt (relAt l (low + (high - low) / 2)) p
            · have hpm2 : strLt p (relAt l (low + (high - low) / 2)) = false := by
                cases hh2 : strLt p (relAt l (low + (high - low) / 2))
                · rfl
                · exact absurd hh2 hpm
              exact absurd (strLt_connex hpm2 hh) heq
            · rfl
          have hrec := ih (low + (high - low) / 2 + 1) high (by omega) (by omega)
            (by omega) hhl ?_ habove
          · constructor
            · intro mid rest hres
              simp only [bsearchLoop, if_pos hlh, if_neg heq, if_neg hpm] at hres
              exact hrec.1 mid rest hres
            · intro flow hres
              simp only [bsearchLoop, if_pos hlh, if_neg heq, if_neg hpm] at hres
              exact hrec.2 flow hres
          · intro i hi1 hi2
            rcases lt_trichotomy i (low + (high - low) / 2) with hc | hc | hc
            · rcases lt_or_ge i low with hc2 | hc2
              · exact hbelow i hi1 hc2
              · exact strLt_trans (sorted_relAt_lt hs hi1 hc (by omega)) hmp
            · cases hc
              exact hmp
            · exact absurd hc (by omega)
    · constructor
      · intro mid rest hres
        exact absurd hres (by simp [bsearchLoop, if_neg hlh])
      · intro flow hres
        simp only [bsearchLoop, if_neg hlh, Prod.mk.injEq, true_and] at hres
        subst hres
        refine ⟨h0, by omega, hbelow, ?_⟩
        intro i hi1 hi2
        exact habove i (by omega) hi2

theorem ne_of_strLt {a b : String} (h : strLt a b = true) : a ≠ b := by
  intro he
  subst he
  rw [strLt_irrefl] at h
  exact absurd h (by simp)

theorem mem_relAt {l : List Entry} {e : Entry} (he : e ∈ l) :
    ∃ i : Int, 0 ≤ i ∧ i < (l.length : Int) ∧ relAt l i = e.relativePath ∧
      entryAt l i = some e := by
  obtain ⟨i, hi, hei⟩ := List.mem_iff_getElem.mp he
  have hat : entryAt l (i : Int) = some e := by
    unfold entryAt
    rw [if_neg (by omega : ¬ (i:Int) < 0)]
    simp only [Int.toNat_natCast]
    rw [List.getElem?_eq_getElem hi, hei]
  refine ⟨(i : Int), by omega, by omega, ?_, hat⟩
  unfold relAt
  rw [hat]

theorem entryAt_mem {l : List Entry} {i : Int} {e : Entry} (h : entryAt l i = some e) :
    e ∈ l := by
  unfold entryAt at h
  split at h
  · cases h
  · exact List.getElem?_mem h

theorem relAt_of_entryAt {l : List Entry} {i : Int} {e : Entry}
    (h : entryAt l i = some e) : relAt l i = e.relativePath := by
  unfold relAt
  rw [h]

theorem entryAt_of_lt {l : List Entry} {i : Int} (h0 : 0 ≤ i)
    (h1 : i < (l.length : Int)) : ∃ e, entryAt l i = some e := by
  obtain ⟨hn, _, h⟩ := relAt_of_lt h0 h1
  exact ⟨_, h⟩

/-- Exact search (`closest` unset) on a sorted array: either `-1` with the
path absent from the array, or an index holding the path. -/
theorem search_exact_spec {l : List Entry} {p : String} (hs : SortedU l) :
    (searchByRelativePath l p false = -1 ∧ ∀ e ∈ l, e.relativePath ≠ p) ∨
    (∃ k : Int, 0 ≤ k ∧ k < (l.length : Int) ∧
      searchByRelativePath l p false = k ∧ relAt l k = p) := by
  by_cases hlen : l.length = 0
  · left
    refine ⟨by simp [searchByRelativePath, hlen], ?_⟩
    intro e he
    rw [List.length_eq_zero.mp hlen] at he
    cases he
  · by_cases hfirst : strLt p (relAt l 0) = true
    · left
      refine ⟨by simp [searchByRelativePath, hlen, hfirst], ?_⟩
      intro e he hep
      obtain ⟨i, hi0, hilen, hrel, _⟩ := mem_relAt he
      have hpi : strLt p (relAt l i) = true := by
        rcases eq_or_lt_of_le hi0 with hc | hc
        · rw [← hc]
          exact hfirst
        · exact strLt_trans hfirst (sorted_relAt_lt hs le_rfl hc hilen)
      rw [hrel] at hpi
      exact absurd hep.symm (ne_of_strLt hpi)
    · by_cases hlast : strLt (relAt l ((l.length : Int) - 1)) p = true
      · left
        refine ⟨by simp [searchByRelativePath, hlen, hfirst, hlast], ?_⟩
        intro e he hep
        obtain ⟨i, hi0, hilen, hrel, _⟩ := mem_relAt he
        have hip : strLt (relAt l i) p = true := by
          rcases lt_or_ge i ((l.length : Int) - 1) with hc | hc
          · exact strLt_trans (sorted_relAt_lt hs hi0 hc (by omega)) hlast
          · have hieq : i = (l.length : Int) - 1 := by omega
            rw [hieq]
            exact hlast
        rw [hrel] at hip
        exact absurd hep (ne_of_strLt hip)
      · have hspec := bsearchLoop_spec l p hs (l.length + 1) 0 ((l.length : Int) - 1)
          (by omega) (by omega) (by omega) (by omega)
          (by intro i h1 h2; exfalso; omega)
          (by intro i h1 h2; exfalso; omega)
        rcases hres : bsearchLoop l p (l.length + 1) 0 ((l.length : Int) - 1) with
          ⟨found, flow⟩
        cases found with
        | some mid =>
          obtain ⟨hm0, hmlen, hmrel⟩ := hspec.1 mid flow hres
          right
          refine ⟨mid, hm0, hmlen, ?_, hmrel⟩
          simp [searchByRelativePath, hlen, hfirst, hlast, hres]
        | none =>
          obtain ⟨hf0, hflen, hbel, habv⟩ := hspec.2 flow hres
          left
          refine ⟨by simp [searchByRelativePath, hlen, hfirst, hlast, hres], ?_⟩
          intro e he hep
          obtain ⟨i, hi0, hilen, hrel, _⟩ := mem_relAt he
          rcases lt_or_ge i flow with hc | hc
          · have hbi := hbel i hi0 hc
            rw [hrel] at hbi
            exact absurd hep (ne_of_strLt hbi)
          · have hai := habv i hc hilen
            rw [hrel] at hai
            exact absurd hep.symm (ne_of_strLt hai)

/-- Closest search on a sorted array: either `-1` with every path greater
than the target, or an index whose path is ≤ the target with every later
path greater. -/
theorem search_closest_spec (l : List Entry) (p : String) (hs : SortedU l) :
    (searchByRelativePath l p true = -1 ∧ ∀ e ∈ l, strLt p e.relativePath = true) ∨
    (∃ k : Int, 0 ≤ k ∧ k < (l.length : Int) ∧ searchByRelativePath l p true = k ∧
      (relAt l k = p ∨ strLt (relAt l k) p = true) ∧
      (∀ j : Int, k < j → j < (l.length : Int) → strLt p (relAt l j) = true)) := by
  by_cases hlen : l.length = 0
  · left
    refine ⟨by simp [searchByRelativePath, hlen], ?_⟩
    intro e he
    rw [List.length_eq_zero.mp hlen] at he
    cases he
  · by_cases hfirst : strLt p (relAt l 0) = true
    · left
      refine ⟨by simp [searchByRelativePath, hlen, hfirst], ?_⟩
      intro e he
      obtain ⟨i, hi0, hilen, hrel, _⟩ := mem_relAt he
      rw [← hrel]
      rcases eq_or_lt_of_le hi0 with hc | hc
      · rw [← hc]
        exact hfirst
      · exact strLt_trans hfirst (sorted_relAt_lt hs le_rfl hc hilen)
    · by_cases hlast : strLt (relAt l ((l.length : Int) - 1)) p = true
      · right
        refine ⟨(l.length : Int) - 1, by omega, by omega,
          by simp [searchByRelativePath, hlen, hfirst, hlast], Or.inr hlast, ?_⟩
        intro j hj1 hj2
        exfalso
        omega
      · have hspec := bsearchLoop_spec l p hs (l.length + 1) 0 ((l.length : Int) - 1)
          (by omega) (by omega) (by omega) (by omega)
          (by intro i h1 h2; exfalso; omega)
          (by intro i h1 h2; exfalso; omega)
        rcases hres : bsearchLoop l p (l.length + 1) 0 ((l.length : Int) - 1) with
          ⟨found, flow⟩
        cases found with
        | some mid =>
          obtain ⟨hm0, hmlen, hmrel⟩ := hspec.1 mid flow hres
          right
          refine ⟨mid, hm0, hmlen,
            by simp [searchByRelativePath, hlen, hfirst, hlast, hres], Or.inl hmrel, ?_⟩
          intro j hj1 hj2
          have hlt := sorted_relAt_lt hs hm0 hj1 hj2
          rw [hmrel] at hlt
          exact hlt
        | none =>
          obtain ⟨hf0, hflen, hbel, habv⟩ := hspec.2 flow hres
          have hflow1 : 1 ≤ flow := by
            by_contra hcon
            have hup := habv 0 (by omega) (by omega)
            rw [hup] at hfirst
            exact hfirst rfl
          have hflow2 : flow ≤ (l.length : Int) - 1 := by
            by_contra hcon
            have hdown := hbel ((l.length : Int) - 1) (by omega) (by omega)
            rw [hdown] at hlast
            exact hlast rfl
          have hrelflow : strLt (relAt l flow) p = false :=
            strLt_asymm (habv flow le_rfl (by omega))
          right
          refine ⟨flow - 1, by omega, by omega, ?_, ?_, ?_⟩
          · have hnl1 : ¬ flow ≥ (l.length : Int) := by omega
            have hnl2 : ¬ flow < 0 := by omega
            simp [searchByRelativePath, hlen, hfirst, hlast, hres, hrelflow, hnl1, hnl2]
          · exact Or.inr (hbel (flow - 1) (by omega) (by omega))
          · intro j hj1 hj2
            exact habv j (by omega) hj2

theorem mem_take_idx {l : List Entry} {n : Nat} {a : Entry} (h : a ∈ l.take n) :
    ∃ i, ∃ hi : i < l.length, i < n ∧ l[i] = a := by
  obtain ⟨j, hj, hja⟩ := List.mem_iff_getElem.mp h
  rw [List.length_take] at hj
  refine ⟨j, by omega, by omega, ?_⟩
  rw [← hja]
  exact (List.getElem_take l).symm

theorem mem_drop_idx {l : List Entry} {n : Nat} {a : Entry} (h : a ∈ l.drop n) :
    ∃ i, ∃ hi : i < l.length, n ≤ i ∧ l[i] = a := by
  obtain ⟨j, hj, hja⟩ := List.mem_iff_getElem.mp h
  rw [List.length_drop] at hj
  refine ⟨n + j, by omega, by omega, ?_⟩
  rw [← hja]
  exact (List.getElem_drop l).symm

theorem relAt_natCast {l : List Entry} {i : Nat} (h : i < l.length) :
    relAt l (i : Int) = l[i].relativePath := by
  unfold relAt entryAt
  rw [if_neg (by omega : ¬ (i : Int) < 0)]
  simp only [Int.toNat_natCast]
  rw [List.getElem?_eq_getElem h]

theorem sorted_getElem_lt {l : List Entry} (hs : SortedU l) {i j : Nat}
    (hi : i < l.length) (hj : j < l.length) (hij : i < j) :
    strLt l[i].relativePath l[j].relativePath = true :=
  List.pairwise_iff_getElem.mp hs i j hi hj hij

theorem sorted_unique_path {l : List Entry} (hs : SortedU l) {e1 e2 : Entry}
    (h1 : e1 ∈ l) (h2 : e2 ∈ l) (hp : e1.relativePath = e2.relativePath) :
    e1 = e2 := by
  obtain ⟨i, hi, hie⟩ := List.mem_iff_getElem.mp h1
  obtain ⟨j, hj, hje⟩ := List.mem_iff_getElem.mp h2
  rcases lt_trichotomy i j with hc | hc | hc
  · have := sorted_getElem_lt hs hi hj hc
    rw [hie, hje, hp] at this
    rw [strLt_irrefl] at this
    cases this
  · subst hc
    rw [← hie, ← hje]
  · have := sorted_getElem_lt hs hj hi hc
    rw [hie, hje, hp] at this
    rw [strLt_irrefl] at this
    cases this

theorem sortedU_set {l : List Entry} (hs : SortedU l) {n : Nat} {e : Entry}
    (hn : n < l.length) (hrel : l[n].relativePath = e.relativePath) :
    SortedU (l.set n e) := by
  rw [SortedU, List.pairwise_iff_getElem]
  intro i j hi hj hij
  rw [List.length_set] at hi hj
  have horig := sorted_getElem_lt hs hi hj hij
  rw [List.getElem_set, List.getElem_set]
  by_cases hin : n = i
  · subst hin
    rw [if_pos rfl, if_neg (by omega : ¬ n = j), ← hrel]
    exact horig
  · rw [if_neg hin]
    by_cases hjn : n = j
    · subst hjn
      rw [if_pos rfl, ← hrel]
      exact horig
    · rw [if_neg hjn]
      exact horig

theorem sortedU_insertAt {l : List Entry} (hs : SortedU l) {k : Nat} {e : Entry}
    (hk : k < l.length)
    (hlt : strLt l[k].relativePath e.relativePath = true)
    (hgt : ∀ j : Nat, ∀ hj : j < l.length, k < j →
      strLt e.relativePath l[j].relativePath = true) :
    SortedU (l.take (k + 1) ++ e :: l.drop (k + 1)) := by
  rw [SortedU, List.pairwise_append]
  refine ⟨List.Pairwise.sublist (List.take_sublist _ _) hs, ?_, ?_⟩
  · rw [List.pairwise_cons]
    constructor
    · intro b hb
      obtain ⟨j, hj, hjge, rfl⟩ := mem_drop_idx hb
      exact hgt j hj (by omega)
    · exact List.Pairwise.sublist (List.drop_sublist _ _) hs
  · intro a ha b hb
    obtain ⟨i, hi, hin, rfl⟩ := mem_take_idx ha
    rcases List.mem_cons.mp hb with rfl | hb
    · rcases Nat.lt_or_ge i k with hc | hc
      · exact strLt_trans (sorted_getElem_lt hs hi hk hc) hlt
      · have hik : i = k := by omega
        subst hik
        exact hlt
    · obtain ⟨j, hj, hjge, rfl⟩ := mem_drop_idx hb
      exact sorted_getElem_lt hs hi hj (by omega)

/-- `_insertEntry` preserves the sorted-unique invariant. -/
theorem insertEntry_sortedU {l : List Entry} (hs : SortedU l) (e : Entry) :
    SortedU (insertEntry l e) := by
  unfold insertEntry
  rcases search_closest_spec l e.relativePath hs with ⟨hm1, hall⟩ |
    ⟨k, hk0, hklen, hksearch, hkrel, hkgt⟩
  · rw [hm1]
    simp only [if_pos rfl]
    exact List.Pairwise.cons (fun b hb => hall b hb) hs
  · rw [hksearch, if_neg (by omega : ¬ k = -1)]
    obtain ⟨hkn, hkrelg, _⟩ := relAt_of_lt hk0 hklen
    rcases hkrel with hkeq | hklt
    · rw [if_pos hkeq]
      exact sortedU_set hs hkn (by rw [← hkrelg]; exact hkeq)
    · rw [if_neg (by rw [hkrelg] at hklt; rw [hkrelg]; exact ne_of_strLt hklt)]
      refine sortedU_insertAt hs hkn ?_ ?_
      · rw [← hkrelg]
        exact hklt
      · intro j hj hkj
        have := hkgt (j : Int) (by omega) (by omega)
        rw [relAt_natCast hj] at this
        exact this

/-- `_removeEntry` preserves the sorted-unique invariant. -/
theorem removeEntry_sortedU {l : List Entry} (hs : SortedU l) (e : Entry) :
    SortedU (removeEntry l e) := by
  unfold removeEntry
  by_cases h : searchByRelativePath l e.relativePath false = -1
  · rw [h]
    simp only [if_pos rfl]
    exact hs
  · rw [if_neg h]
    exact List.Pairwise.sublist (List.eraseIdx_sublist _ _) hs

theorem getElem_mem_take {l : List Entry} {i n : Nat} (hi : i < l.length)
    (hin : i < n) : l[i] ∈ l.take n := by
  have hlt : i < (l.take n).length := by
    rw [List.length_take]
    omega
  have heq : (l.take n)[i] = l[i] := List.getElem_take l
  rw [← heq]
  exact List.getElem_mem hlt

theorem getElem_mem_drop {l : List Entry} {i n : Nat} (hi : i < l.length)
    (hin : n ≤ i) : l[i] ∈ l.drop n := by
  have hlt : i - n < (l.drop n).length := by
    rw [List.length_drop]
    omega
  have hn2 : n + (i - n) < l.length := by omega
  have heq : (l.drop n)[i - n] = l[n + (i - n)] := List.getElem_drop l
  have heq2 : l[n + (i - n)] = l[i] := by
    congr 1
    omega
  rw [← heq2, ← heq]
  exact List.getElem_mem hlt

/-- The entry inserted by `_insertEntry` is present afterwards. -/
theorem insertEntry_mem_self {l : List Entry} (hs : SortedU l) (e : Entry) :
    e ∈ insertEntry l e := by
  unfold insertEntry
  rcases search_closest_spec l e.relativePath hs with ⟨hm1, _⟩ |
    ⟨k, hk0, hklen, hksearch, hkrel, _⟩
  · rw [hm1]
    simp
  · rw [hksearch, if_neg (by omega : ¬ k = -1)]
    obtain ⟨hkn, hkrelg, _⟩ := relAt_of_lt hk0 hklen
    rcases hkrel with hkeq | hklt
    · rw [if_pos hkeq, List.set_eq_take_cons_drop e hkn]
      exact List.mem_append.mpr (Or.inr (List.mem_cons_self _ _))
    · rw [if_neg (by rw [hkrelg] at hklt; rw [hkrelg]; exact ne_of_strLt hklt)]
      exact List.mem_append.mpr (Or.inr (List.mem_cons_self _ _))

/-- Entries with a different path survive `_insertEntry`. -/
theorem insertEntry_mem_of_mem {l : List Entry} (hs : SortedU l) {x : Entry}
    (e : Entry) (hx : x ∈ l) (hne : x.relativePath ≠ e.relativePath) :
    x ∈ insertEntry l e := by
  unfold insertEntry
  obtain ⟨i, hi, hix⟩ := List.mem_iff_getElem.mp hx
  rcases search_closest_spec l e.relativePath hs with ⟨hm1, _⟩ |
    ⟨k, hk0, hklen, hksearch, hkrel, _⟩
  · rw [hm1]
    simp only [if_pos rfl]
    exact List.mem_cons_of_mem _ hx
  · rw [hksearch, if_neg (by omega : ¬ k = -1)]
    obtain ⟨hkn, hkrelg, _⟩ := relAt_of_lt hk0 hklen
    rcases hkrel with hkeq | hklt
    · rw [if_pos hkeq, List.set_eq_take_cons_drop e hkn]
      have hik : i ≠ k.toNat := by
        intro hcon
        subst hcon
        apply hne
        rw [← hix, ← hkrelg, hkeq]
      rcases Nat.lt_or_ge i k.toNat with hc | hc
      · exact List.mem_append.mpr (Or.inl (hix ▸ getElem_mem_take hi hc))
      · refine List.mem_append.mpr (Or.inr (List.mem_cons_of_mem _ ?_))
        exact hix ▸ getElem_mem_drop hi (by omega)
    · rw [if_neg (by rw [hkrelg] at hklt; rw [hkrelg]; exact ne_of_strLt hklt)]
      rcases Nat.lt_or_ge i (k.toNat + 1) with hc | hc
      · exact List.mem_append.mpr (Or.inl (hix ▸ getElem_mem_take hi hc))
      · refine List.mem_append.mpr (Or.inr (List.mem_cons_of_mem _ ?_))
        exact hix ▸ getElem_mem_drop hi hc

/-- `List.eraseIdx` as take-append-drop. -/
theorem eraseIdx_eq_take_drop (l : List Entry) (n : Nat) :
    l.eraseIdx n = l.take n ++ l.drop (n + 1) :=
  List.eraseIdx_eq_take_drop_succ l n

/-- After `_removeEntry` of the entry holding path `p` (in a sorted array),
no entry holds `p` any more. -/
theorem removeEntry_path_absent {l : List Entry} (hs : SortedU l) {e : Entry}
    (hmem : e ∈ l) :
    ∀ x ∈ removeEntry l e, x.relativePath ≠ e.relativePath := by
  unfold removeEntry
  rcases search_exact_spec hs (p := e.relativePath) with ⟨hm1, hall⟩ |
    ⟨k, hk0, hklen, hksearch, hkrel⟩
  · exact absurd rfl (hall e hmem)
  · rw [hksearch, if_neg (by omega : ¬ k = -1)]
    intro x hx
    rw [eraseIdx_eq_take_drop] at hx
    obtain ⟨hkn, hkrelg, _⟩ := relAt_of_lt hk0 hklen
    rcases List.mem_append.mp hx with hxx | hxx
    · obtain ⟨i, hi, hin, rfl⟩ := mem_take_idx hxx
      have := sorted_getElem_lt hs hi hkn hin
      rw [hkrelg] at hkrel
      rw [hkrel] at this
      exact ne_of_strLt this
    · obtain ⟨i, hi, hin, rfl⟩ := mem_drop_idx hxx
      have := sorted_getElem_lt hs hkn hi (by omega)
      rw [hkrelg] at hkrel
      rw [hkrel] at this
      intro hcon
      exact ne_of_strLt this hcon.symm

/-- Entries with a different path survive `_removeEntry`. -/
theorem removeEntry_mem_of_mem {l : List Entry} (hs : SortedU l) {x : Entry}
    (e : Entry) (hx : x ∈ l) (hne : x.relativePath ≠ e.relativePath) :
    x ∈ removeEntry l e := by
  unfold removeEntry
  rcases search_exact_spec hs (p := e.relativePath) with ⟨hm1, _⟩ |
    ⟨k, hk0, hklen, hksearch, hkrel⟩
  · rw [hm1]
    simp only [if_pos rfl]
    exact hx
  · rw [hksearch, if_neg (by omega : ¬ k = -1), eraseIdx_eq_take_drop]
    obtain ⟨i, hi, hix⟩ := List.mem_iff_getElem.mp hx
    obtain ⟨hkn, hkrelg, _⟩ := relAt_of_lt hk0 hklen
    have hik : i ≠ k.toNat := by
      intro hcon
      subst hcon
      apply hne
      rw [← hix, ← hkrelg, hkrel]
    rcases Nat.lt_or_ge i k.toNat with hc | hc
    · exact List.mem_append.mpr (Or.inl (hix ▸ getElem_mem_take hi hc))
    · exact List.mem_append.mpr (Or.inr (hix ▸ getElem_mem_drop hi (by omega)))

/-- Every entry of `_removeEntry`'s result was present before. -/
theorem removeEntry_subset {l : List Entry} (e : Entry) {x : Entry}
    (hx : x ∈ removeEntry l e) : x ∈ l := by
  unfold removeEntry at hx
  by_cases h : searchByRelativePath l e.relativePath false = -1
  · rw [h] at hx
    simpa using hx
  · rw [if_neg h] at hx
    exact (List.eraseIdx_sublist _ _).mem hx

/-- Every entry of `_insertEntry`'s result is the new entry or an old one. -/
theorem insertEntry_subset {l : List Entry} (hs : SortedU l) (e : Entry) {x : Entry}
    (hx : x ∈ insertEntry l e) : x = e ∨ x ∈ l := by
  unfold insertEntry at hx
  rcases search_closest_spec l e.relativePath hs with ⟨hm1, _⟩ |
    ⟨k, hk0, hklen, hksearch, hkrel, _⟩
  · rw [hm1] at hx
    simp only [if_pos rfl] at hx
    rcases List.mem_cons.mp hx with rfl | hx
    · exact Or.inl rfl
    · exact Or.inr hx
  · rw [hksearch, if_neg (by omega : ¬ k = -1)] at hx
    obtain ⟨hkn, hkrelg, _⟩ := relAt_of_lt hk0 hklen
    rcases hkrel with hkeq | hklt
    · rw [if_pos hkeq, List.set_eq_take_cons_drop e hkn] at hx
      rcases List.mem_append.mp hx with hxx | hxx
      · exact Or.inr ((List.take_sublist _ _).mem hxx)
      · rcases List.mem_cons.mp hxx with rfl | hxx
        · exact Or.inl rfl
        · exact Or.inr ((List.drop_sublist _ _).mem hxx)
    · rw [if_neg (by rw [hkrelg] at hklt; rw [hkrelg]; exact ne_of_strLt hklt)] at hx
      rcases List.mem_append.mp hx with hxx | hxx
      · exact Or.inr ((List.take_sublist _ _).mem hxx)
      · rcases List.mem_cons.mp hxx with rfl | hxx
        · exact Or.inl rfl
        · exact Or.inr ((List.drop_sublist _ _).mem hxx)

theorem findWalk_notFound {l : List Entry} {p : String}
    (hnosym : ∀ x ∈ l, ¬(x.isSymbolicLink = true ∧ x.isDirectory = true)) :
    ∀ n, findWalk l p n = FindResult.notFound := by
  intro n
  induction n with
  | zero => rfl
  | succ n ih =>
    unfold findWalk
    cases hl : l[n]? with
    | none => rfl
    | some entry =>
      have hmem := List.getElem?_mem hl
      by_cases hpre : strStartsWith p entry.relativePath = true
      · have hsd : (entry.isSymbolicLink && entry.isDirectory) = false := by
          have := hnosym entry hmem
          cases ha : entry.isSymbolicLink <;> cases hb : entry.isDirectory <;>
            simp_all
        simp [hpre, hsd]
      · simp only [hpre]
        simp [hpre]
        exact ih

/-- `_findByRelativePath` finds the entry holding the (non-root) target path
when it is a non-symlink member of a sorted array. -/
theorem findByRelativePath_found {l : List Entry} {p : String} (hs : SortedU l)
    (hp : ¬ p = "") {e : Entry} (hmem : e ∈ l) (hrel : e.relativePath = p)
    (hnosyml : e.isSymbolicLink = false) (rs : Bool) :
    findByRelativePath l p rs = FindResult.found e := by
  unfold findByRelativePath
  rw [if_neg hp]
  rcases search_closest_spec l p hs with ⟨_, hall⟩ |
    ⟨k, hk0, hklen, hksearch, hkrel, hkgt⟩
  · exfalso
    have hpp := hall e hmem
    rw [hrel, strLt_irrefl] at hpp
    cases hpp
  · rw [hksearch, if_neg (by omega : ¬ k = -1)]
    obtain ⟨hkn, hkrelg, hkat⟩ := relAt_of_lt hk0 hklen
    have hkp : relAt l k = p := by
      rcases hkrel with h | h
      · exact h
      · exfalso
        obtain ⟨i, hi0, hilen, hreli, _⟩ := mem_relAt hmem
        rcases lt_trichotomy i k with hc | hc | hc
        · have hlt1 := sorted_relAt_lt hs hi0 hc hklen
          rw [hreli, hrel] at hlt1
          have := strLt_trans hlt1 h
          rw [strLt_irrefl] at this
          cases this
        · subst hc
          rw [hreli, hrel, strLt_irrefl] at h
          cases h
        · have := hkgt i hc hilen
          rw [hreli, hrel, strLt_irrefl] at this
          cases this
    have hent : l[k.toNat] = e := by
      refine sorted_unique_path hs (List.getElem_mem hkn) hmem ?_
      rw [← hkrelg, hkp, hrel]
    simp only [hkat, hent]
    simp [hrel, hnosyml]

/-- `_findByRelativePath` misses when the (non-root) target path is absent
from a sorted array without internal directory symlinks. -/
theorem findByRelativePath_notFound {l : List Entry} {p : String} (hs : SortedU l)
    (hp : ¬ p = "") (habs : ∀ x ∈ l, x.relativePath ≠ p)
    (hnosym : ∀ x ∈ l, ¬(x.isSymbolicLink = true ∧ x.isDirectory = true)) (rs : Bool) :
    findByRelativePath l p rs = FindResult.notFound := by
  unfold findByRelativePath
  rw [if_neg hp]
  rcases search_closest_spec l p hs with ⟨hm1, _⟩ |
    ⟨k, hk0, hklen, hksearch, _, _⟩
  · rw [hm1]
    simp
  · rw [hksearch, if_neg (by omega : ¬ k = -1)]
    obtain ⟨hkn, hkrelg, hkat⟩ := relAt_of_lt hk0 hklen
    have hne : l[k.toNat].relativePath ≠ p := habs _ (List.getElem_mem hkn)
    simp only [hkat]
    rw [if_neg hne]
    exact findWalk_notFound hnosym _

theorem untrackGo_none {s : List Change} {op : Op} {p : String}
    (h : ∀ c ∈ s, ¬(c.op = op ∧ c.path = p)) : untrackGo op p s = none := by
  induction s with
  | nil => rfl
  | cons c rest ih =>
    unfold untrackGo
    rw [ih fun c2 hc => h c2 (List.mem_cons_of_mem _ hc)]
    rw [if_neg (h c (List.mem_cons_self _ _))]

theorem untrack_no_match {s : List Change} {op : Op} {p : String}
    (h : ∀ c ∈ s, ¬(c.op = op ∧ c.path = p)) : untrack s op p = (false, s) := by
  unfold untrack
  rw [untrackGo_none h]

/-- `_untrack` is the identity when no change mentions the path at all. -/
theorem untrack_no_path {s : List Change} {p : String}
    (h : ∀ c ∈ s, c.path ≠ p) (op : Op) : untrack s op p = (false, s) :=
  untrack_no_match fun c hc hcc => h c hc hcc.2

theorem untrackGo_append_last {s : List Change} {c0 : Change} {op : Op} {p : String}
    (h : ∀ c ∈ s, ¬(c.op = op ∧ c.path = p)) (hc0 : c0.op = op ∧ c0.path = p) :
    untrackGo op p (s ++ [c0]) = some s := by
  induction s with
  | nil =>
    unfold untrackGo
    simp only [List.nil_append]
    unfold untrackGo
    rw [if_pos hc0]
  | cons c rest ih =>
    rw [List.cons_append]
    unfold untrackGo
    rw [ih fun c2 hc => h c2 (List.mem_cons_of_mem _ hc)]

theorem untrack_append_last {s : List Change} {c0 : Change} {op : Op} {p : String}
    (h : ∀ c ∈ s, ¬(c.op = op ∧ c.path = p)) (hc0 : c0.op = op ∧ c0.path = p) :
    untrack (s ++ [c0]) op p = (true, s) := by
  unfold untrack
  rw [untrackGo_append_last h hc0]

/-- Tracking a `create` with no prior change at the path appends a `create`. -/
theorem track_create_fresh {s : List Change} {e : Entry} {p : String}
    (hp : e.relativePath = p) (h : ∀ c ∈ s, c.path ≠ p) :
    track s Op.create e = s ++ [⟨Op.create, p, e⟩] := by
  unfold track
  rw [hp]
  simp [untrack_no_path h]

/-- Tracking an `unlink` with no prior change at the path appends an
`unlink`. -/
theorem track_unlink_fresh {s : List Change} {e : Entry} {p : String}
    (hp : e.relativePath = p) (h : ∀ c ∈ s, c.path ≠ p) :
    track s Op.unlink e = s ++ [⟨Op.unlink, p, e⟩] := by
  unfold track
  rw [hp]
  simp [untrack_no_path h]

/-- The `unlink … create → change` collapsing rule: tracking a `create` right
after an `unlink` of the same path replaces the pair with one `change`. -/
theorem track_create_after_unlink {s : List Change} {e e0 : Entry} {p : String}
    (hp : e.relativePath = p) (h : ∀ c ∈ s, c.path ≠ p) :
    track (s ++ [⟨Op.unlink, p, e0⟩]) Op.create e = s ++ [⟨Op.change, p, e⟩] := by
  unfold track
  rw [hp, untrack_append_last (fun c hc hcc => h c hc hcc.2) ⟨rfl, rfl⟩]
  simp

theorem data_mk (l : List Char) : (String.mk l).data = l := rfl

theorem dirname_data_length_lt {p : String} (hp : ¬ p = "") :
    (dirname p).data.length < p.data.length := by
  have hne : ¬ p.data = [] := fun h => hp (strEq_of_data h)
  have h2 : 0 < p.data.length := List.length_pos.mpr hne
  unfold dirname
  rw [data_mk, List.length_reverse, List.length_drop]
  have h1 : (p.data.reverse.dropWhile fun c => ¬ c = '/').length ≤
      p.data.reverse.length :=
    List.Sublist.length_le (List.dropWhile_sublist _)
  rw [List.length_reverse] at h1
  omega

/-- A non-root path is never its own parent. -/
theorem dirname_ne_self {p : String} (hp : ¬ p = "") : dirname p ≠ p := by
  intro h
  have hlt := dirname_data_length_lt hp
  rw [h] at hlt
  omega

theorem isDirectory_mk_file (p : String) (sz mt : Option Int) (ck : Option String) :
    Entry.isDirectory { relativePath := p, size := sz, mtime := mt,
                        mode := FILE_MODE, checksum := ck, symlink := none } =
      false := by
  unfold Entry.isDirectory
  norm_num [FILE_MODE]

/-- `Entry.make` with `FILE_MODE` is the plain record (no chomping). -/
theorem make_file_eq (p : String) (sz mt : Option Int) (ck : Option String) :
    Entry.make p sz mt FILE_MODE ck = { relativePath := p, size := sz, mtime := mt,
                                        mode := FILE_MODE, checksum := ck,
                                        symlink := none } := by
  have h : ¬ (Entry.isDirectory { relativePath := p, size := sz, mtime := mt,
                                  mode := FILE_MODE, checksum := ck,
                                  symlink := none } = true) := by
    rw [isDirectory_mk_file]
    simp
  simp only [Entry.make]
  rw [if_neg h]

/-- An entry made with `FILE_MODE` keeps its path verbatim (no chomping). -/
theorem make_file_relativePath (p : String) (sz mt : Option Int)
    (ck : Option String) :
    (Entry.make p sz mt FILE_MODE ck).relativePath = p := by
  rw [make_file_eq]

/-- An entry made with `FILE_MODE` is not a directory and not a symlink. -/
theorem make_file_shape (p : String) (sz mt : Option Int) (ck : Option String) :
    (Entry.make p sz mt FILE_MODE ck).isDirectory = false ∧
      (Entry.make p sz mt FILE_MODE ck).isSymbolicLink = false ∧
      (Entry.make p sz mt FILE_MODE ck).checksum = ck := by
  rw [make_file_eq]
  exact ⟨isDirectory_mk_file p sz mt ck, rfl, rfl⟩

/-- `_throwOnCommonErrors` succeeds when the tree is started, the path is
non-root, the parent directory (if any) exists and is not a symlink, and —
unless symlink targets are allowed — no symlink sits at the target path. -/
theorem throwOnCommonErrors_ok {t : WritableTree} (operation : String)
    {np : String} (rp : String) (allowRoot allowSymlinks : Bool)
    (hstart : t.started = true)
    (hsorted : SortedU t.entries)
    (hnp : ¬ np = "")
    (hop : ¬ operation = "mkdirp")
    (hparent : dirname np = "" ∨
      ∃ pe ∈ t.entries, pe.relativePath = dirname np ∧ pe.isSymbolicLink = false)
    (htarget : allowSymlinks = true ∨
      ∀ x ∈ t.entries, x.relativePath = np → x.isSymbolicLink = false) :
    throwOnCommonErrors t operation np rp allowRoot allowSymlinks = Except.ok () := by
  have hParentFact : dirname np = "" ∨
      ∃ k : Int, searchByRelativePath t.entries (dirname np) false = k ∧
        ¬ k = -1 ∧ ∃ pe, entryAt t.entries k = some pe ∧
          pe.isSymbolicLink = false := by
    rcases hparent with h | ⟨pe, hpe, hrelpe, hsympe⟩
    · exact Or.inl h
    · right
      rcases search_exact_spec hsorted (p := dirname np) with ⟨_, hall⟩ |
        ⟨k, hk0, hklen, hksearch, hkrel⟩
      · exact absurd hrelpe (hall pe hpe)
      · obtain ⟨hkn, hkrelg, hkat⟩ := relAt_of_lt hk0 hklen
        refine ⟨k, hksearch, by omega, t.entries[k.toNat], hkat, ?_⟩
        have heq : t.entries[k.toNat] = pe := by
          refine sorted_unique_path hsorted (List.getElem_mem hkn) hpe ?_
          rw [← hkrelg, hkrel, hrelpe]
        rw [heq]
        exact hsympe
  have hTargetFact : allowSymlinks = true ∨
      searchByRelativePath t.entries np false = -1 ∨
      ∃ k : Int, searchByRelativePath t.entries np false = k ∧
        ¬ k = -1 ∧ ∃ te, entryAt t.entries k = some te ∧
          te.isSymbolicLink = false := by
    rcases htarget with h | h
    · exact Or.inl h
    · rcases search_exact_spec hsorted (p := np) with ⟨hm1, _⟩ |
        ⟨k, hk0, hklen, hksearch, hkrel⟩
      · exact Or.inr (Or.inl hm1)
      · right; right
        obtain ⟨hkn, hkrelg, hkat⟩ := relAt_of_lt hk0 hklen
        refine ⟨k, hksearch, by omega, t.entries[k.toNat], hkat, ?_⟩
        refine h _ (List.getElem_mem hkn) ?_
        rw [← hkrelg, hkrel]
  unfold throwOnCommonErrors
  rcases hParentFact with hpp | ⟨k, hks, hkne, pe, hkat, hksym⟩
  · rcases hTargetFact with hts | hts | ⟨k2, hts2, htne, te, htat, htsym⟩
    · simp [hstart, hnp, hop, hpp, hts]
      rfl
    · simp [hstart, hnp, hop, hpp, hts]
      rfl
    · simp [hstart, hnp, hop, hpp, hts2, htne, htat, htsym]
      rfl
  · rcases hTargetFact with hts | hts | ⟨k2, hts2, htne, te, htat, htsym⟩
    · simp [hstart, hnp, hop, hks, hkne, hkat, hksym, hts]
      rfl
    · simp [hstart, hnp, hop, hks, hkne, hkat, hksym, hts]
      rfl
    · simp [hstart, hnp, hop, hks, hkne, hkat, hksym, hts2, htne, htat, htsym]
      rfl

/-- `unlinkSync` on an existing plain file: logs the disk unlink, tracks an
`unlink`, and removes the entry. -/
theorem unlinkSync_file {t : WritableTree} {p : String} {e : Entry}
    (hstart : t.started = true)
    (hsorted : SortedU t.entries)
    (hnorm : normalizeRelativePath p = Except.ok p)
    (hp : ¬ p = "")
    (hparent : dirname p = "" ∨
      ∃ pe ∈ t.entries, pe.relativePath = dirname p ∧ pe.isSymbolicLink = false)
    (hmem : e ∈ t.entries) (hrel : e.relativePath = p)
    (hnosyml : e.isSymbolicLink = false) (hfile : e.isDirectory = false) :
    t.unlinkSync p = Except.ok
      { t with log := t.log ++ [FsOp.unlinkFs p],
               changes := track t.changes Op.unlink e,
               entries := removeEntry t.entries e } := by
  have hcommon := throwOnCommonErrors_ok "unlink" p false true hstart hsorted hp
    (by decide) hparent (Or.inl rfl)
  have hfind := findByRelativePath_found hsorted hp hmem hrel hnosyml false
  unfold WritableTree.unlinkSync
  rw [hnorm]
  simp [Bind.bind, Except.bind, pure, Except.pure, hcommon, hfind, hnosyml, hfile]

/-- `writeFileSync` at a fresh path: logs the disk write, tracks a `create`
with the new file entry, and inserts that entry. -/
theorem writeFileSync_create (md5hex : String → String) (t : WritableTree)
    (p content : String) (now : Int)
    (hstart : t.started = true)
    (hsorted : SortedU t.entries)
    (hnorm : normalizeRelativePath p = Except.ok p)
    (hp : ¬ p = "")
    (hparent : dirname p = "" ∨
      ∃ pe ∈ t.entries, pe.relativePath = dirname p ∧ pe.isSymbolicLink = false)
    (habs : ∀ x ∈ t.entries, x.relativePath ≠ p)
    (hnosym : ∀ x ∈ t.entries, ¬(x.isSymbolicLink = true ∧ x.isDirectory = true)) :
    WritableTree.writeFileSync md5hex t p content now = Except.ok
      { t with
        log := t.log ++ [FsOp.writeFileFs p content],
        changes := track t.changes Op.create
          (Entry.make p (some content.data.length) (some now) FILE_MODE
            (some (md5hex content))),
        entries := insertEntry t.entries
          (Entry.make p (some content.data.length) (some now) FILE_MODE
            (some (md5hex content))) } := by
  have hcommon := throwOnCommonErrors_ok "writeFile" p false false hstart hsorted hp
    (by decide) hparent (Or.inr fun x hx hr => absurd hr (habs x hx))
  have hfind := findByRelativePath_notFound hsorted hp habs hnosym true
  unfold WritableTree.writeFileSync
  rw [hnorm]
  simp [Bind.bind, Except.bind, pure, Except.pure, hcommon, hfind]

/-- `writeFileSync` over an existing plain file whose stored checksum already
matches the new content: no disk write, no tracked change, no entry update. -/
theorem writeFileSync_noop (md5hex : String → String) (t : WritableTree)
    (p : String) (e : Entry) (content : String) (now : Int)
    (hstart : t.started = true)
    (hsorted : SortedU t.entries)
    (hnorm : normalizeRelativePath p = Except.ok p)
    (hp : ¬ p = "")
    (hparent : dirname p = "" ∨
      ∃ pe ∈ t.entries, pe.relativePath = dirname p ∧ pe.isSymbolicLink = false)
    (hmem : e ∈ t.entries) (hrel : e.relativePath = p)
    (hnosyml : e.isSymbolicLink = false) (hfile : e.isDirectory = false)
    (hck : e.checksum = some (md5hex content)) :
    WritableTree.writeFileSync md5hex t p content now = Except.ok t := by
  have htarget : ∀ x ∈ t.entries, x.relativePath = p → x.isSymbolicLink = false := by
    intro x hx hr
    have : x = e := sorted_unique_path hsorted hx hmem (by rw [hr, hrel])
    rw [this]
    exact hnosyml
  have hcommon := throwOnCommonErrors_ok "writeFile" p false false hstart hsorted hp
    (by decide) hparent (Or.inr htarget)
  have hfind := findByRelativePath_found hsorted hp hmem hrel hnosyml true
  unfold WritableTree.writeFileSync
  rw [hnorm]
  simp [Bind.bind, Except.bind, pure, Except.pure, hcommon, hfind, hfile, hnosyml, hck]

/-- **C3**: In a started WritableTree, performing `unlink(p)` on an existing
plain file and then `write_file(p, content)` at the same path (with no other
change recorded at `p`) leaves the change tracker reporting exactly one change
for `p`, with operation `change` — the prior `unlink` record is dropped. -/
theorem C3_unlink_then_write (md5hex : String → String) (t : WritableTree)
    (p content : String) (now : Int) (e : Entry)
    (hstart : t.started = true)
    (hsorted : SortedU t.entries)
    (hnosym : ∀ x ∈ t.entries, ¬(x.isSymbolicLink = true ∧ x.isDirectory = true))
    (hnorm : normalizeRelativePath p = Except.ok p)
    (hp : ¬ p = "")
    (hparent : dirname p = "" ∨
      ∃ pe ∈ t.entries, pe.relativePath = dirname p ∧ pe.isSymbolicLink = false)
    (hmem : e ∈ t.entries) (hrel : e.relativePath = p)
    (hnosyml : e.isSymbolicLink = false) (hfile : e.isDirectory = false)
    (hfresh : ∀ c ∈ t.changes, c.path ≠ p) :
    ∃ t1 t2 : WritableTree,
      t.unlinkSync p = Except.ok t1 ∧
      WritableTree.writeFileSync md5hex t1 p content now = Except.ok t2 ∧
      t2.changes.filter (fun c => c.path = p) =
        [⟨Op.change, p, Entry.make p (some content.data.length) (some now)
          FILE_MODE (some (md5hex content))⟩] := by
  have hul := unlinkSync_file hstart hsorted hnorm hp hparent hmem hrel hnosyml hfile
  have htrack1 : track t.changes Op.unlink e = t.changes ++ [⟨Op.unlink, p, e⟩] :=
    track_unlink_fresh hrel hfresh
  have hsorted1 : SortedU (removeEntry t.entries e) := removeEntry_sortedU hsorted e
  have habs1 : ∀ x ∈ removeEntry t.entries e, x.relativePath ≠ p := by
    intro x hx
    have h2 := removeEntry_path_absent hsorted hmem x hx
    rwa [hrel] at h2
  have hnosym1 : ∀ x ∈ removeEntry t.entries e,
      ¬(x.isSymbolicLink = true ∧ x.isDirectory = true) :=
    fun x hx => hnosym x (removeEntry_subset e hx)
  have hparent1 : dirname p = "" ∨
      ∃ pe ∈ removeEntry t.entries e,
        pe.relativePath = dirname p ∧ pe.isSymbolicLink = false := by
    rcases hparent with h | ⟨pe, hpe, hrelpe, hsympe⟩
    · exact Or.inl h
    · refine Or.inr ⟨pe, removeEntry_mem_of_mem hsorted e hpe ?_, hrelpe, hsympe⟩
      rw [hrelpe, hrel]
      exact dirname_ne_self hp
  have hwr := writeFileSync_create md5hex
    { entries := removeEntry t.entries e, started := t.started,
      changes := track t.changes Op.unlink e, log := t.log ++ [FsOp.unlinkFs p] }
    p content now hstart hsorted1 hnorm hp hparent1 habs1 hnosym1
  refine ⟨_, _, hul, hwr, ?_⟩
  have hmk := make_file_relativePath p (some content.data.length) (some now)
    (some (md5hex content))
  simp only [htrack1]
  rw [track_create_after_unlink hmk hfresh, List.filter_append]
  have hnil : t.changes.filter (fun c => decide (c.path = p)) = [] := by
    refine List.filter_eq_nil_iff.mpr ?_
    intro c hc
    simp [hfresh c hc]
  rw [hnil]
  simp

/-- C3 witness: a one-file tree, `unlink hello.txt` then
`write_file hello.txt "new"` tracks exactly `[change hello.txt]`. -/
theorem C3_unlink_then_write_witness :
    ∃ t1 t2 : WritableTree,
      (WritableTree.mk [Entry.make "hello.txt" (some 1) (some 0) FILE_MODE none]
        true [] []).unlinkSync "hello.txt" = Except.ok t1 ∧
      WritableTree.writeFileSync (fun _ => "c2a5") t1 "hello.txt" "new" 7 =
        Except.ok t2 ∧
      t2.changes.filter (fun c => c.path = "hello.txt") =
        [⟨Op.change, "hello.txt", Entry.make "hello.txt"
          (some ("new".data.length)) (some 7) FILE_MODE (some "c2a5")⟩] :=
  C3_unlink_then_write (fun _ => "c2a5")
    (WritableTree.mk [Entry.make "hello.txt" (some 1) (some 0) FILE_MODE none]
      true [] [])
    "hello.txt" "new" 7 (Entry.make "hello.txt" (some 1) (some 0) FILE_MODE none)
    rfl (by unfold SortedU; simp) (by decide) rfl (by decide)
    (Or.inl (by decide)) (by decide) (by decide) (by decide) (by decide)
    (by decide)

/-- **C4**: In a started WritableTree, writing the same content to the same
path twice in succession tracks exactly one change in total, and the second
call is a complete no-op: no disk write is logged and the stored entry — its
mtime and size included — is unchanged, even at a later timestamp, because the
stored checksum matches the new content's checksum. -/
theorem C4_write_write_idempotent (md5hex : String → String) (t : WritableTree)
    (p content : String) (now now2 : Int)
    (hstart : t.started = true)
    (hsorted : SortedU t.entries)
    (hnosym : ∀ x ∈ t.entries, ¬(x.isSymbolicLink = true ∧ x.isDirectory = true))
    (hnorm : normalizeRelativePath p = Except.ok p)
    (hp : ¬ p = "")
    (hparent : dirname p = "" ∨
      ∃ pe ∈ t.entries, pe.relativePath = dirname p ∧ pe.isSymbolicLink = false)
    (habs : ∀ x ∈ t.entries, x.relativePath ≠ p)
    (hfresh : ∀ c ∈ t.changes, c.path ≠ p) :
    ∃ t1 : WritableTree,
      WritableTree.writeFileSync md5hex t p content now = Except.ok t1 ∧
      t1.changes = t.changes ++
        [⟨Op.create, p, Entry.make p (some content.data.length) (some now)
          FILE_MODE (some (md5hex content))⟩] ∧
      WritableTree.writeFileSync md5hex t1 p content now2 = Except.ok t1 := by
  have hwr1 := writeFileSync_create md5hex t p content now hstart hsorted
    hnorm hp hparent habs hnosym
  have hmk := make_file_relativePath p (some content.data.length) (some now)
    (some (md5hex content))
  obtain ⟨hdir, hsym, hcksum⟩ := make_file_shape p (some content.data.length)
    (some now) (some (md5hex content))
  have hsorted1 : SortedU (insertEntry t.entries
      (Entry.make p (some content.data.length) (some now) FILE_MODE
        (some (md5hex content)))) :=
    insertEntry_sortedU hsorted _
  have hmem1 := insertEntry_mem_self hsorted
    (Entry.make p (some content.data.length) (some now) FILE_MODE
      (some (md5hex content)))
  have hparent1 : dirname p = "" ∨
      ∃ pe ∈ insertEntry t.entries
        (Entry.make p (some content.data.length) (some now) FILE_MODE
          (some (md5hex content))),
        pe.relativePath = dirname p ∧ pe.isSymbolicLink = false := by
    rcases hparent with h | ⟨pe, hpe, hrelpe, hsympe⟩
    · exact Or.inl h
    · refine Or.inr ⟨pe, insertEntry_mem_of_mem hsorted _ hpe ?_, hrelpe, hsympe⟩
      rw [hrelpe, hmk]
      exact dirname_ne_self hp
  refine ⟨_, hwr1, ?_, ?_⟩
  · simp only
    exact track_create_fresh hmk hfresh
  · exact writeFileSync_noop md5hex
      { entries := insertEntry t.entries
          (Entry.make p (some content.data.length) (some now) FILE_MODE
            (some (md5hex content))),
        started := t.started,
        changes := track t.changes Op.create
          (Entry.make p (some content.data.length) (some now) FILE_MODE
            (some (md5hex content))),
        log := t.log ++ [FsOp.writeFileFs p content] }
      p
      (Entry.make p (some content.data.length) (some now) FILE_MODE
        (some (md5hex content)))
      content now2 hstart hsorted1 hnorm hp hparent1 hmem1 hmk hsym hdir hcksum

/-- C4 witness: on an empty tree, `write_file a.txt "hi"` twice (timestamps 3
then 9) yields one `create` change and an unchanged state after the second
call. -/
theorem C4_write_write_idempotent_witness :
    ∃ t1 : WritableTree,
      WritableTree.writeFileSync (fun _ => "49f6") (WritableTree.mk [] true [] [])
        "a.txt" "hi" 3 = Except.ok t1 ∧
      t1.changes = [] ++
        [⟨Op.create, "a.txt", Entry.make "a.txt" (some ("hi".data.length))
          (some 3) FILE_MODE (some "49f6")⟩] ∧
      WritableTree.writeFileSync (fun _ => "49f6") t1 "a.txt" "hi" 9 =
        Except.ok t1 :=
  C4_write_write_idempotent (fun _ => "49f6") (WritableTree.mk [] true [] [])
    "a.txt" "hi" 3 9 rfl (by unfold SortedU; simp) (by decide) rfl
    (by decide) (Or.inl (by decide)) (by decide) (by decide)

theorem inSubtree_refl (q : String) : InSubtree q q := Or.inl rfl

theorem clone_some_rel (e : Entry) (p : String) :
    (Entry.clone e (some p)).relativePath = p := rfl

theorem lookup_cons_eq {x k v : String} {l : List (String × String)} (h : x = k) :
    List.lookup x ((k, v) :: l) = some v := by
  subst h
  simp [List.lookup]

theorem lookup_cons_ne {x k v : String} {l : List (String × String)}
    (h : ¬ x = k) : List.lookup x ((k, v) :: l) = List.lookup x l := by
  have hb : (x == k) = false := beq_eq_false_iff_ne.mpr h
  simp [List.lookup, hb]

/-- If the names still to scan contain two distinct spellings with the same
folded form — or a name whose folded form is recorded with a different
spelling — the capitalization guard fails. -/
theorem capsScan_conflict (toLower : String → String) :
    ∀ (ns : List String) (seen : List (String × String)),
      ((∃ a ∈ ns, ∃ b ∈ ns, a ≠ b ∧ toLower a = toLower b) ∨
        (∃ b ∈ ns, ∃ o, seen.lookup (toLower b) = some o ∧ o ≠ b)) →
      capsScan toLower seen ns = Except.error FsError.conflictingCapitalization
  | [], seen, h => by
    rcases h with ⟨a, ha, _⟩ | ⟨b, hb, _⟩
    · cases ha
    · cases hb
  | n :: rest, seen, h => by
    unfold capsScan
    cases hl : seen.lookup (toLower n) with
    | some o =>
      change (if o = n then capsScan toLower seen rest
        else Except.error FsError.conflictingCapitalization) =
        Except.error FsError.conflictingCapitalization
      by_cases ho : o = n
      · rw [if_pos ho]
        refine capsScan_conflict toLower rest seen ?_
        rcases h with ⟨a, ha, b, hb, hne, hf⟩ | ⟨b, hb, o', hlo, hone⟩
        · rcases List.mem_cons.mp ha with rfl | ha2
          · rcases List.mem_cons.mp hb with rfl | hb2
            · exact absurd rfl hne
            · refine Or.inr ⟨b, hb2, o, ?_, ?_⟩
              · rw [← hf]
                exact hl
              · rw [ho]
                exact hne
          · rcases List.mem_cons.mp hb with rfl | hb2
            · refine Or.inr ⟨a, ha2, o, ?_, ?_⟩
              · rw [hf]
                exact hl
              · rw [ho]
                exact fun hc => hne hc.symm
            · exact Or.inl ⟨a, ha2, b, hb2, hne, hf⟩
        · rcases List.mem_cons.mp hb with rfl | hb2
          · rw [hl] at hlo
            injection hlo with h2
            refine absurd ?_ hone
            rw [← h2]
            exact ho
          · exact Or.inr ⟨b, hb2, o', hlo, hone⟩
      · rw [if_neg ho]
    | none =>
      refine capsScan_conflict toLower rest ((toLower n, n) :: seen) ?_
      rcases h with ⟨a, ha, b, hb, hne, hf⟩ | ⟨b, hb, o', hlo, hone⟩
      · rcases List.mem_cons.mp ha with rfl | ha2
        · rcases List.mem_cons.mp hb with rfl | hb2
          · exact absurd rfl hne
          · exact Or.inr ⟨b, hb2, a, lookup_cons_eq hf.symm, hne⟩
        · rcases List.mem_cons.mp hb with rfl | hb2
          · exact Or.inr ⟨a, ha2, b, lookup_cons_eq hf,
              fun hc => hne hc.symm⟩
          · exact Or.inl ⟨a, ha2, b, hb2, hne, hf⟩
      · rcases List.mem_cons.mp hb with rfl | hb2
        · rw [hl] at hlo
          cases hlo
        · by_cases hfb : toLower b = toLower n
          · rw [hfb, hl] at hlo
            cases hlo
          · exact Or.inr ⟨b, hb2, o', by rw [lookup_cons_ne hfb]; exact hlo, hone⟩

/-- **C8**: when two distinct names in different input trees fold to the same
lower-case form, the `_mergeRelativePath` guards fail with the
conflicting-capitalizations merge error, for `overwrite := true` and
`overwrite := false` alike — the capitalization guard runs before, and
independently of, the overwrite check. -/
theorem C8_conflicting_capitalization (toLower : String → String)
    (isDir : Nat → String → Bool) (names : List (List String)) (i j : Nat)
    (hi : i < names.length) (hj : j < names.length) (hij : i ≠ j)
    (n m : String) (hn : n ∈ names[i]) (hm : m ∈ names[j]) (hnm : n ≠ m)
    (hfold : toLower n = toLower m) (overwrite : Bool) :
    mergeRelativePathGuards toLower isDir overwrite names =
      Except.error FsError.conflictingCapitalization := by
  have hcaps : capsScan toLower [] names.flatten =
      Except.error FsError.conflictingCapitalization := by
    refine capsScan_conflict toLower names.flatten [] (Or.inl ?_)
    exact ⟨n, List.mem_flatten.mpr ⟨names[i], List.getElem_mem hi, hn⟩,
           m, List.mem_flatten.mpr ⟨names[j], List.getElem_mem hj, hm⟩,
           hnm, hfold⟩
  unfold mergeRelativePathGuards
  simp [Bind.bind, Except.bind, hcaps]

/-- C8 witness: input trees listing `Foo` and `foo` collide under either
overwrite setting. -/
theorem C8_conflicting_capitalization_witness :
    mergeRelativePathGuards strToLower (fun _ _ => false) true
      [["Foo"], ["foo"]] = Except.error FsError.conflictingCapitalization ∧
    mergeRelativePathGuards strToLower (fun _ _ => false) false
      [["Foo"], ["foo"]] = Except.error FsError.conflictingCapitalization :=
  ⟨C8_conflicting_capitalization strToLower (fun _ _ => false) [["Foo"], ["foo"]]
      0 1 (by decide) (by decide) (by decide) "Foo" "foo" (by decide) (by decide)
      (by decide) (by decide) true,
   C8_conflicting_capitalization strToLower (fun _ _ => false) [["Foo"], ["foo"]]
      0 1 (by decide) (by decide) (by decide) "Foo" "foo" (by decide) (by decide)
      (by decide) (by decide) false⟩

/-- **C9**: a Projection accepts at most one of the `files` filter and the
`include`/`exclude` filters.  (1) Setting a non-null files list while a
non-empty include or exclude filter is in effect errors; (2) setting a
non-empty include/exclude filter while a files list is in effect errors;
(3) the cwd setter composes with any filter state; (4) setting files while
include/exclude are absent succeeds; (5) setting include/exclude while files
is absent succeeds; (6) constructing with a files list and a non-empty
include filter errors. -/
theorem C9_incompatible_filters :
    (∀ (st : ProjState) (l : List String),
      (st.incl ≠ [] ∨ st.excl ≠ []) → st.files = none →
      setFiles st (some l) = Except.error FsError.incompatibleFilters) ∧
    (∀ (st : ProjState) (b : Bool) (ms : List Matcher),
      ms ≠ [] → st.files.isSome = true → (if b then st.incl else st.excl) = [] →
      setFilter st b (some ms) = Except.error FsError.incompatibleFilters) ∧
    (∀ (st : ProjState) (v : Option String) (c : String),
      normalizeRelativePath (v.getD "") = Except.ok c →
      setCwd st v = Except.ok { st with cwd := c }) ∧
    (∀ (st : ProjState) (l pl : List String),
      st.incl = [] → st.excl = [] → st.files = none →
      normalizeAll l = Except.ok pl →
      setFiles st (some l) = Except.ok
        { st with files := some l, processedFiles := some pl,
                  entriesFromFiles :=
                    some (sortAndExpand (pl.map Entry.fromPath)) }) ∧
    (∀ (st : ProjState) (b : Bool) (ms : List Matcher),
      st.files = none → ms ≠ (if b then st.incl else st.excl) →
      setFilter st b (some ms) = Except.ok
        (if b then { st with incl := ms } else { st with excl := ms })) ∧
    (∀ (l pl : List String) (m : Matcher) (ms : List Matcher)
       (exclv : Option (List Matcher)),
      normalizeAll l = Except.ok pl →
      mkProjection none (some l) (some (m :: ms)) exclv =
        Except.error FsError.incompatibleFilters) := by
  refine ⟨?_, ?_, ?_, ?_, ?_, ?_⟩
  · intro st l hfilters hfiles
    rcases hfilters with h | h
    · have hi : st.incl.isEmpty = false := by
        cases hl : st.incl with
        | nil => exact absurd hl h
        | cons x xs => rfl
      simp [setFiles, hfiles, hi]
    · have he : st.excl.isEmpty = false := by
        cases hl : st.excl with
        | nil => exact absurd hl h
        | cons x xs => rfl
      simp [setFiles, hfiles, he]
  · intro st b ms hms hfiles hold
    have hne : ms.isEmpty = false := by
      cases ms with
      | nil => exact absurd rfl hms
      | cons x xs => rfl
    simp [setFilter, hold, hms, hne, hfiles]
  · intro st v c h
    unfold setCwd
    rw [h]
    rfl
  · intro st l pl hincl hexcl hfiles hnorm
    simp [setFiles, hfiles, hincl, hexcl, Bind.bind, Except.bind, hnorm]
  · intro st b ms hfiles hneq
    simp [setFilter, hneq, hfiles]
  · intro l pl m ms exclv hnorm
    have h0 : setCwd ProjState.initial none = Except.ok ProjState.initial := rfl
    have h1 : setFiles ProjState.initial (some l) = Except.ok
        { cwd := "", files := some l, incl := [], excl := [],
          processedFiles := some pl,
          entriesFromFiles := some (sortAndExpand (pl.map Entry.fromPath)) } := by
      simp [setFiles, ProjState.initial, Bind.bind, Except.bind, hnorm]
    have h2 : setFilter
        { cwd := "", files := some l, incl := [], excl := [],
          processedFiles := some pl,
          entriesFromFiles := some (sortAndExpand (pl.map Entry.fromPath)) }
        true (some (m :: ms)) = Except.error FsError.incompatibleFilters := by
      simp [setFilter]
    unfold mkProjection
    simp [Bind.bind, Except.bind, h0, h1, h2]

/-- C9 witness: each incompatibility and compatibility case at concrete
states. -/
theorem C9_incompatible_filters_witness :
    setFiles { cwd := "", files := none, incl := [Matcher.str "x"], excl := [],
               processedFiles := none, entriesFromFiles := none } (some ["a"]) =
      Except.error FsError.incompatibleFilters ∧
    setFilter { cwd := "", files := some ["a"], incl := [], excl := [],
                processedFiles := some ["a"], entriesFromFiles := some [] }
        true (some [Matcher.str "x"]) =
      Except.error FsError.incompatibleFilters ∧
    setCwd ProjState.initial (some "sub") =
      Except.ok { ProjState.initial with cwd := "sub" } ∧
    setFiles ProjState.initial (some ["a"]) = Except.ok
      { ProjState.initial with
          files := some ["a"],
          processedFiles := some ["a"],
          entriesFromFiles :=
            some (sortAndExpand (List.map Entry.fromPath ["a"])) } ∧
    setFilter ProjState.initial false (some [Matcher.str "x"]) =
      Except.ok { ProjState.initial with excl := [Matcher.str "x"] } ∧
    mkProjection none (some ["a"]) (some [Matcher.str "x"]) none =
      Except.error FsError.incompatibleFilters :=
  ⟨C9_incompatible_filters.1 _ ["a"] (Or.inl (by decide)) rfl,
   C9_incompatible_filters.2.1 _ true [Matcher.str "x"] (by decide) rfl rfl,
   C9_incompatible_filters.2.2.1 ProjState.initial (some "sub") "sub" rfl,
   C9_incompatible_filters.2.2.2.1 ProjState.initial ["a"] ["a"] rfl rfl rfl rfl,
   C9_incompatible_filters.2.2.2.2.1 ProjState.initial false [Matcher.str "x"]
     rfl (by decide),
   C9_incompatible_filters.2.2.2.2.2 ["a"] ["a"] (Matcher.str "x") [] none rfl⟩

/-- **C10**: for every parent tree, a Projection whose `files` filter has been
set to the empty array `[]` has empty `entries` and `paths`: the setter stores
`_entriesFromFiles = []`, which as an empty JS array is truthy, so the getter
returns its clone without ever consulting the parent.  With `files` null,
`_entriesFromFiles` is undefined and the getter instead walks the parent with
no file-list restriction — on a parent holding one file `a.txt`, the
projection exposes that file. -/
theorem C10_files_empty_vs_null :
    (∀ (getDir : String → List Entry)
       (matchFn partialMatchFn : String → Matcher → Bool) (fuel : Nat)
       (st st' : ProjState),
      st.files ≠ some [] →
      setFiles st (some []) = Except.ok st' →
      projEntries getDir matchFn partialMatchFn fuel st' = [] ∧
      projPaths getDir matchFn partialMatchFn fuel st' = []) ∧
    (∀ matchFn partialMatchFn : String → Matcher → Bool,
      projEntries
        (fun p => if p = "" then
          [{ relativePath := "a.txt", size := some 1, mtime := some 0,
             mode := FILE_MODE, checksum := none, symlink := none }]
          else [])
        matchFn partialMatchFn 1 ProjState.initial =
        [{ relativePath := "a.txt", size := some 1, mtime := some 0,
           mode := FILE_MODE, checksum := none, symlink := none }] ∧
      projPaths
        (fun p => if p = "" then
          [{ relativePath := "a.txt", size := some 1, mtime := some 0,
             mode := FILE_MODE, checksum := none, symlink := none }]
          else [])
        matchFn partialMatchFn 1 ProjState.initial = ["a.txt"]) := by
  constructor
  · intro getDir matchFn partialMatchFn fuel st st' hne hset
    simp only [setFiles] at hset
    split at hset
    · next hcc => exact absurd hcc.symm hne
    · split at hset
      · exact absurd hset (by simp)
      · simp [Bind.bind, Except.bind, normalizeAll] at hset
        subst hset
        refine ⟨?_, ?_⟩ <;>
          simp [projEntries, projPaths, sortAndExpand, sortEntries,
            sortAndExpandLoop]
  · intro matchFn partialMatchFn
    exact ⟨rfl, rfl⟩

/-- C10 witness: the empty-files projection is empty, the null-files
projection over the same kind of parent exposes the parent's file. -/
theorem C10_files_empty_vs_null_witness :
    (projEntries (fun _ => []) (fun _ _ => false) (fun _ _ => false) 0
      { cwd := "", files := some [], incl := [], excl := [],
        processedFiles := some [], entriesFromFiles := some [] } = [] ∧
     projPaths (fun _ => []) (fun _ _ => false) (fun _ _ => false) 0
      { cwd := "", files := some [], incl := [], excl := [],
        processedFiles := some [], entriesFromFiles := some [] } = []) ∧
    (projEntries
        (fun p => if p = "" then
          [{ relativePath := "a.txt", size := some 1, mtime := some 0,
             mode := FILE_MODE, checksum := none, symlink := none }]
          else [])
        (fun _ _ => false) (fun _ _ => false) 1 ProjState.initial =
        [{ relativePath := "a.txt", size := some 1, mtime := some 0,
           mode := FILE_MODE, checksum := none, symlink := none }] ∧
      projPaths
        (fun p => if p = "" then
          [{ relativePath := "a.txt", size := some 1, mtime := some 0,
             mode := FILE_MODE, checksum := none, symlink := none }]
          else [])
        (fun _ _ => false) (fun _ _ => false) 1 ProjState.initial = ["a.txt"]) :=
  ⟨C10_files_empty_vs_null.1 (fun _ => []) (fun _ _ => false) (fun _ _ => false) 0
      ProjState.initial
      { cwd := "", files := some [], incl := [], excl := [],
        processedFiles := some [], entriesFromFiles := some [] }
      (by decide) rfl,
   C10_files_empty_vs_null.2 (fun _ _ => false) (fun _ _ => false)⟩

end FsTree
